import Mathlib

/-!
Verification development for the asciiflow diagram grid engine.

The TypeScript sources under `src/client` are embedded shallowly:
JavaScript strings become `List Char`, JavaScript numbers become `ℚ`
(`Math.round`, `Math.floor`, `Math.min`/`max` become their exact rational
counterparts), the sparse grid (`Layer`) becomes an association list from
integer coordinates to string values, and the stateful `CanvasStore` /
`Controller` methods become pure state-transition functions.

Files `vector.ts`, `common.ts`, `layer.ts`, `constants.ts` and
`store/drawing_stringifier.ts` are not part of the provided sources; the
definitions embedding them are modelled from the specification (each such
definition carries a doc comment saying so).  Everything else is translated
directly from the sources (`text_utils.ts`, `view.tsx`, `font.ts`,
`store/canvas.ts`, and the `Controller` input-handling file).
-/

/-- JavaScript `Math.round`: rounds half-up (towards +∞), i.e. `⌊q + 1/2⌋`. -/
def jsRound (q : ℚ) : ℤ := ⌊q + 1 / 2⌋

/-- JavaScript strings are modelled as lists of characters. -/
abbrev Str := List Char

/-- Convenience conversion from Lean string literals to the `Str` model. -/
def str (s : String) : Str := s.data

/-- Modelled from the spec: `vector.ts` is not under `src/`.  Per §3 a
Vector is an immutable integer pair `(x, y)` with pure arithmetic. -/
structure Vector where
  x : Int
  y : Int
deriving DecidableEq, Repr

/-- Vector addition (`Vector.add` in `vector.ts`, used by `textToLayer`). -/
def Vector.add (a b : Vector) : Vector := ⟨a.x + b.x, a.y + b.y⟩

/-- Modelled from the spec: `common.ts` is not under `src/`.  Per §3 a Box
is two Vectors, normalized on construction so `topLeft` has the minimum
coordinates and `bottomRight` the maximum. -/
structure Box where
  topLeft : Vector
  bottomRight : Vector
deriving DecidableEq, Repr

/-- Normalizing Box constructor (`new Box(a, b)` per §3 of the spec). -/
def Box.make (a b : Vector) : Box :=
  ⟨⟨min a.x b.x, min a.y b.y⟩, ⟨max a.x b.x, max a.y b.y⟩⟩

/-- Modelled from the spec: `layer.ts` is not under `src/`.  Per §3/§4.1 a
Layer is a sparse mapping from Vector to a string value, mutated only via
`set`/`delete`; the JavaScript object backing it is embedded as an
association list (key order is observable only through `keys`/`entries`,
whose order the spec leaves free). -/
structure Layer where
  map : List (Vector × Str)
deriving DecidableEq, Repr

/-- The empty Layer (`new Layer()`). -/
def Layer.empty : Layer := ⟨[]⟩

/-- Layer lookup: value stored at `v`, or `none` when the cell is absent
(JavaScript `get` returns `null`/`undefined` for absent keys). -/
def Layer.get (l : Layer) (v : Vector) : Option Str :=
  (l.map.find? (fun kv => kv.1 = v)).map (fun kv => kv.2)

/-- Layer update: JavaScript object assignment overwrites an existing key in
place and otherwise appends a new key. -/
def Layer.set (l : Layer) (v : Vector) (ch : Str) : Layer :=
  if l.map.any (fun kv => kv.1 = v) then
    ⟨l.map.map (fun kv => if kv.1 = v then (v, ch) else kv)⟩
  else
    ⟨l.map ++ [(v, ch)]⟩

/-- Layer deletion: JavaScript `delete` removes the key. -/
def Layer.delete (l : Layer) (v : Vector) : Layer :=
  ⟨l.map.filter (fun kv => kv.1 ≠ v)⟩

/-- Snapshot of the keys (`keys()`). -/
def Layer.keys (l : Layer) : List Vector := l.map.map (fun kv => kv.1)

/-- Snapshot of the entries (`entries()`). -/
def Layer.entries (l : Layer) : List (Vector × Str) := l.map

/-- Number of stored cells (`size()`). -/
def Layer.size (l : Layer) : Nat := l.map.length

/-- Layer invariant from §3 of the spec: a key present in the mapping always
has a non-empty value (the empty string is reserved as the deletion marker
inside deltas and is never a stored cell value). -/
def Layer.nonEmptyValues (l : Layer) : Prop :=
  ∀ p s, l.get p = some s → s ≠ []

/-- Well-formedness: the association list holds each key at most once, as a
JavaScript object does.  All layers built through `set`/`delete` from the
empty layer satisfy this. -/
def Layer.WF (l : Layer) : Prop := (l.map.map (fun kv => kv.1)).Nodup

/-- Modelled from the spec: `layer.ts` is not under `src/`.  Per §3,
`apply(delta)` returns a pair `[resultLayer, inverseDelta]`: the result is
the receiver with every key of `delta` overwritten — set to the value of
`delta`, or cleared when `delta` marks deletion (the empty-string value
marks deletion, matching the `!!value` guards kept in `text_utils.ts`) —
and the inverse delta records, for every key touched, the value the
receiver held before the operation, recording absence as the empty-string
deletion marker. -/
def Layer.apply (base delta : Layer) : Layer × Layer :=
  let result := delta.map.foldl
    (fun acc kv => if kv.2 = [] then acc.delete kv.1 else acc.set kv.1 kv.2)
    base
  let inverse := delta.map.foldl
    (fun acc kv => acc.set kv.1 ((base.get kv.1).getD []))
    Layer.empty
  (result, inverse)

/-- State of one `CanvasStore` (`store/canvas.ts`).  The zoom/offset fields,
`localStorage` persistence and the synchronous `notify()` call are
orthogonal to the embedded operations and are left out of the state. -/
structure CanvasStore where
  committed : Layer
  scratch : Layer
  undoLayers : List Layer
  redoLayers : List Layer
  selection : Option Box
deriving Repr

/-- `CanvasStore.commitScratch` (`store/canvas.ts` lines 206–222) as a pure
state transition. -/
def CanvasStore.commitScratch (s : CanvasStore) : CanvasStore :=
  let applied := s.committed.apply s.scratch
  { committed := applied.1
    scratch := Layer.empty
    undoLayers :=
      if 0 < applied.2.size then s.undoLayers ++ [applied.2] else s.undoLayers
    redoLayers := []
    selection := s.selection }

/-- `CanvasStore.undo` (`store/canvas.ts` lines 224–238): no-op on an empty
undo stack, otherwise applies the last undo delta (`at(-1)` / `slice(0, -1)`)
and pushes the returned redo delta. -/
def CanvasStore.undo (s : CanvasStore) : CanvasStore :=
  if s.undoLayers.length = 0 then s
  else
    let applied := s.committed.apply (s.undoLayers.getLastD Layer.empty)
    { committed := applied.1
      scratch := s.scratch
      undoLayers := s.undoLayers.dropLast
      redoLayers := s.redoLayers ++ [applied.2]
      selection := s.selection }

/-- `CanvasStore.redo` (`store/canvas.ts` lines 240–254): mirror of `undo`
over the redo stack. -/
def CanvasStore.redo (s : CanvasStore) : CanvasStore :=
  if s.redoLayers.length = 0 then s
  else
    let applied := s.committed.apply (s.redoLayers.getLastD Layer.empty)
    { committed := applied.1
      scratch := s.scratch
      undoLayers := s.undoLayers ++ [applied.2]
      redoLayers := s.redoLayers.dropLast
      selection := s.selection }

/-- `CanvasStore.clearScratch`: replaces scratch with a fresh empty Layer. -/
def CanvasStore.clearScratch (s : CanvasStore) : CanvasStore :=
  { s with scratch := Layer.empty }

/-- `CanvasStore.clearSelection`: `setSelection(null)`. -/
def CanvasStore.clearSelection (s : CanvasStore) : CanvasStore :=
  { s with selection := none }

/-- Observable outcome of the Ctrl/Cmd+Z branch of `Controller.handleKeyDown`:
the resulting canvas state plus which of the calls `currentTool.cleanup()`,
`undo()` and `redo()` were made. -/
structure ZBranchResult where
  state : CanvasStore
  toolCleanupCalled : Bool
  undoCalled : Bool
  redoCalled : Bool
deriving Repr

/-- The `event.keyCode === 90` branch of `Controller.handleKeyDown` (the
controller source, lines 109–129), reached when Ctrl or Meta is held: with
shift it redoes; without shift it discards active scratch content
(tool cleanup, `clearScratch()`, `clearSelection()`) when
`scratch.size() > 0`, and only otherwise calls `undo()`. -/
def Controller.handleKeyDownZ (s : CanvasStore) (shift : Bool) : ZBranchResult :=
  if shift then
    ⟨s.redo, false, false, true⟩
  else if 0 < s.scratch.size then
    ⟨(s.clearScratch).clearSelection, true, false, false⟩
  else
    ⟨s.undo, false, true, false⟩

/-- Ambient parameters of the coordinate-transform pipeline in `view.tsx`:
current zoom and offset (`store.currentCanvas`), the viewport size
(`document.documentElement.clientWidth/Height`), the measured character cell
in pixels (`CHAR_PIXELS_H`/`CHAR_PIXELS_V` from `font.ts`), and the grid
limits (`MAX_GRID_WIDTH`/`MAX_GRID_HEIGHT` from `constants.ts`, which is not
under `src/`; the limits stay symbolic). -/
structure ViewEnv where
  zoom : ℚ
  offsetX : ℚ
  offsetY : ℚ
  clientWidth : ℚ
  clientHeight : ℚ
  charPixelsH : ℕ
  charPixelsV : ℕ
  maxGridWidth : ℕ
  maxGridHeight : ℕ
deriving Repr

/-- `screenToFrame` (`view.tsx` lines 273–280). -/
def screenToFrame (env : ViewEnv) (v : ℚ × ℚ) : ℚ × ℚ :=
  ((v.1 - env.clientWidth / 2) / env.zoom + env.offsetX,
   (v.2 - env.clientHeight / 2) / env.zoom + env.offsetY)

/-- `frameToScreen` (`view.tsx` lines 285–292). -/
def frameToScreen (env : ViewEnv) (v : ℚ × ℚ) : ℚ × ℚ :=
  ((v.1 - env.offsetX) * env.zoom + env.clientWidth / 2,
   (v.2 - env.offsetY) * env.zoom + env.clientHeight / 2)

/-- `frameToCell` (`view.tsx` lines 297–319): round with a `-H/2` horizontal
and `+V/2` vertical bias, then clamp into
`[1, MAX_GRID_WIDTH - 2] × [1, MAX_GRID_HEIGHT - 2]`. -/
def frameToCell (env : ViewEnv) (v : ℚ × ℚ) : Vector :=
  ⟨min (max 1 (jsRound ((v.1 - (env.charPixelsH : ℚ) / 2) / env.charPixelsH)))
       ((env.maxGridWidth : ℤ) - 2),
   min (max 1 (jsRound ((v.2 + (env.charPixelsV : ℚ) / 2) / env.charPixelsV)))
       ((env.maxGridHeight : ℤ) - 2)⟩

/-- `cellToFrame` (`view.tsx` lines 324–329). -/
def cellToFrame (env : ViewEnv) (c : Vector) : Vector :=
  ⟨jsRound ((c.x : ℚ) * env.charPixelsH), jsRound ((c.y : ℚ) * env.charPixelsV)⟩

/-- `screenToCell` (`view.tsx` lines 334–336). -/
def screenToCell (env : ViewEnv) (v : ℚ × ℚ) : Vector :=
  frameToCell env (screenToFrame env v)

/-- `cellToScreen` (`view.tsx` lines 341–343). -/
def cellToScreen (env : ViewEnv) (c : Vector) : ℚ × ℚ :=
  frameToScreen env (((cellToFrame env c).x : ℚ), ((cellToFrame env c).y : ℚ))

/-- Transcription of the computation the spec claims for `frameToCell`
(claim C6 / spec §4.2): divide by `(H, V)`, with a half-cell vertical bias
`+V/2` and no horizontal bias, round to nearest, then clamp.  Kept separate
from the source-derived `frameToCell` so the two can be compared. -/
def frameToCellSpecC6 (env : ViewEnv) (v : ℚ × ℚ) : Vector :=
  ⟨min (max 1 (jsRound (v.1 / env.charPixelsH))) ((env.maxGridWidth : ℤ) - 2),
   min (max 1 (jsRound ((v.2 + (env.charPixelsV : ℚ) / 2) / env.charPixelsV)))
       ((env.maxGridHeight : ℤ) - 2)⟩

/-- `snapZoom` (`font.ts` lines 23–25): `Math.round(zoom * V) / V`. -/
def snapZoom (charPixelsV : ℕ) (zoom : ℚ) : ℚ :=
  ((jsRound (zoom * charPixelsV) : ℤ) : ℚ) / charPixelsV

/-- The line-ending normalization in `textToLayer` (`text_utils.ts` line 54):
the global regex replace of `\r\n?` by `\n` — a `\r` together with an
immediately following `\n` (if any) becomes a single `\n`. -/
def normalizeNewlines : Str → Str
  | [] => []
  | '\r' :: '\n' :: rest => '\n' :: normalizeNewlines rest
  | '\r' :: rest => '\n' :: normalizeNewlines rest
  | c :: rest => c :: normalizeNewlines rest

/-- JavaScript `String.prototype.split("\n")` (`text_utils.ts` line 54):
the empty string yields one empty segment; every newline starts a new
segment. -/
def splitNl : Str → List Str
  | [] => [[]]
  | '\n' :: rest => [] :: splitNl rest
  | c :: rest => (c :: (splitNl rest).headD []) :: (splitNl rest).tail

/-- JavaScript `Array.prototype.join("\n")` (`text_utils.ts` line 42). -/
def joinLines : List Str → Str
  | [] => []
  | [l] => l
  | l :: ls => l ++ '\n' :: joinLines ls

/-- The guard of `textToLayer` (`text_utils.ts` line 61): keep a character
only when it is not a space and not an ASCII control character (codes 0–31
and 127). -/
def keepChar (c : Char) : Prop :=
  c ≠ ' ' ∧ 32 ≤ c.toNat ∧ c.toNat ≠ 127

instance (c : Char) : Decidable (keepChar c) := by
  unfold keepChar; infer_instance

/-- `textToLayer` (`text_utils.ts` lines 48–67): normalize line endings,
split into lines, and store each kept character at its `(column, row)`
position shifted by `offset`. -/
def textToLayer (value : Str) (offset : Vector) : Layer :=
  let lines := splitNl (normalizeNewlines value)
  lines.enum.foldl
    (fun layer jline =>
      jline.2.enum.foldl
        (fun l ichar =>
          if keepChar ichar.2 then
            l.set ((Vector.mk ichar.1 jline.1).add offset) [ichar.2]
          else l)
        layer)
    Layer.empty

/-- JavaScript `Number.MAX_SAFE_INTEGER`, the fold seed of the bounding-box
computation in `layerToText` (`text_utils.ts` lines 11–12). -/
def maxSafeInteger : ℤ := 9007199254740991

/-- The per-cell output value of `layerToText` (`text_utils.ts` lines
29–39): an absent or empty value leaves the space fill; a value whose first
character code is below 32 or equal to 127 is replaced by a space; any other
value is emitted as is. -/
def cellText (layer : Layer) (p : Vector) : Str :=
  match layer.get p with
  | none => [' ']
  | some [] => [' ']
  | some (c :: cs) =>
    if c.toNat < 32 ∨ c.toNat = 127 then [' '] else c :: cs

/-- `layerToText` (`text_utils.ts` lines 5–43).  The source fills a
rectangular array of spaces from `entries()` and joins it; since a layer
built through `set`/`delete` holds each key once, the fill is re-expressed
cell by cell: each position of the (bounding or supplied) box renders via
`cellText`.  The bounding box is the exact `Math.min`/`Math.max` fold of
the source, seeded with `MAX_SAFE_INTEGER`/`MIN_SAFE_INTEGER`. -/
def layerToText (layer : Layer) (obox : Option Box) : Str :=
  if layer.keys.length = 0 then []
  else
    let box :=
      match obox with
      | some b => b
      | none =>
        let start := layer.keys.foldl
          (fun (s : Vector) (p : Vector) => Vector.mk (min s.x p.x) (min s.y p.y))
          ⟨maxSafeInteger, maxSafeInteger⟩
        let stop := layer.keys.foldl
          (fun (e : Vector) (p : Vector) => Vector.mk (max e.x p.x) (max e.y p.y))
          ⟨-maxSafeInteger, -maxSafeInteger⟩
        Box.make start stop
    let height := (box.bottomRight.y - box.topLeft.y + 1).toNat
    let width := (box.bottomRight.x - box.topLeft.x + 1).toNat
    let rows := (List.range height).map
      (fun (r : ℕ) =>
        ((List.range width).map
          (fun (c : ℕ) =>
            cellText layer ⟨box.topLeft.x + (c : ℤ), box.topLeft.y + (r : ℤ)⟩)).foldl
          (fun acc cur => acc ++ cur) [])
    joinLines rows

/-- The Windows line-ending variant of a text: every `\n` written `\r\n`. -/
def toCRLF (t : Str) : Str :=
  t.flatMap (fun c => if c = '\n' then ['\r', '\n'] else [c])

/-- The old-Mac line-ending variant of a text: every `\n` written `\r`. -/
def toCR (t : Str) : Str :=
  t.map (fun c => if c = '\n' then '\r' else c)

/-- Modelled from the spec: `layer.ts` is not under `src/`.  Per §4.5 the
serialized shape of a Layer is either the version-1 dense block
`{x, y, text}` or the version-2 sparse cell list tagged `version: 2`; the
JSON/string level is abstracted into this tagged union. -/
inductive SerializedLayer where
  | v1 (x y : Int) (text : Str)
  | v2 (cells : List (Vector × Str))
deriving DecidableEq, Repr

/-- The version tag visible in the serialized JSON: a v1 payload has no
`version` field; a v2 payload carries `version: 2`. -/
def SerializedLayer.version : SerializedLayer → Option Nat
  | .v1 _ _ _ => none
  | .v2 _ => some 2

/-- Modelled from the spec: `layer.ts` is not under `src/`.  Per §4.5,
encoding always writes the version-2 sparse key/value shape. -/
def Layer.serialize (l : Layer) : SerializedLayer := .v2 l.map

/-- Modelled from the spec: `layer.ts` is not under `src/`.  Per §4.5,
`deserialize` auto-detects the shape: a v1 dense block is decoded by
splitting on normalized line breaks and placing each kept character at its
absolute offset (the `textToLayer` algorithm), and a v2 cell list is a
direct key/value load. -/
def Layer.deserialize : SerializedLayer → Layer
  | .v1 x y text => textToLayer text ⟨x, y⟩
  | .v2 cells => cells.foldl (fun l kv => l.set kv.1 kv.2) Layer.empty

/-- A named drawing, the unit handled by `DrawingStringifier` (§4.5). -/
structure Drawing where
  name : Option Str
  layer : Layer
deriving Repr

/-- Modelled from the spec: `store/drawing_stringifier.ts` is not under
`src/`.  Per §4.5 the drawing codec encodes `{name, layer}` (compression
and URL-safe encoding of the payload string are below this model). -/
def DrawingStringifier.serialize (d : Drawing) : Option Str × SerializedLayer :=
  (d.name, d.layer.serialize)

/-- Modelled from the spec: decode half of the drawing codec. -/
def DrawingStringifier.deserialize (p : Option Str × SerializedLayer) : Drawing :=
  ⟨p.1, Layer.deserialize p.2⟩

/-! ### Helper lemmas -/

theorem jsRound_intCast (n : ℤ) : jsRound (n : ℚ) = n := by
  rw [jsRound, Int.floor_eq_iff]
  constructor <;> [push_cast; push_cast] <;> norm_num

theorem jsRound_intCast_add_half (n : ℤ) : jsRound ((n : ℚ) + 1 / 2) = n + 1 := by
  have h : ((n : ℚ) + 1 / 2) + 1 / 2 = ((n + 1 : ℤ) : ℚ) := by push_cast; ring
  rw [jsRound, h, Int.floor_intCast]

theorem jsRound_intCast_sub_half (n : ℤ) : jsRound ((n : ℚ) - 1 / 2) = n := by
  have h : ((n : ℚ) - 1 / 2) + 1 / 2 = ((n : ℤ) : ℚ) := by ring
  rw [jsRound, h, Int.floor_intCast]

/-! ### Claim theorems -/

/-- C9: for every zoom value `z` in the supported range `0.2 ≤ z ≤ 5`,
`snapZoom z × CHAR_PIXELS_V` is an integer (the measured cell height
`CHAR_PIXELS_V` is a positive integer number of pixels). -/
theorem snapZoom_mul_charPixelsV_isInt (V : ℕ) (z : ℚ) (hV : 0 < V)
    (_hlo : 1 / 5 ≤ z) (_hhi : z ≤ 5) :
    ∃ n : ℤ, snapZoom V z * V = (n : ℚ) := by
  refine ⟨jsRound (z * V), ?_⟩
  have hVQ : (V : ℚ) ≠ 0 := Nat.cast_ne_zero.mpr hV.ne'
  rw [snapZoom]
  field_simp

/-- Witness for C9 at `V = 18`, `z = 1/2`. -/
theorem snapZoom_mul_charPixelsV_isInt_witness :
    0 < 18 ∧ (1 / 5 : ℚ) ≤ 1 / 2 ∧ (1 / 2 : ℚ) ≤ 5 ∧
      ∃ n : ℤ, snapZoom 18 (1 / 2) * 18 = (n : ℚ) :=
  ⟨by norm_num, by norm_num, by norm_num,
    snapZoom_mul_charPixelsV_isInt 18 (1 / 2) (by norm_num) (by norm_num) (by norm_num)⟩

/-- C2: `commitScratch()` sets `committed` to `committed.apply(scratch)[0]`,
pushes the returned inverse delta onto the undo stack exactly when that
delta is non-empty, clears the redo stack, and replaces scratch with an
empty Layer. -/
theorem commitScratch_spec (s : CanvasStore) :
    s.commitScratch.committed = (s.committed.apply s.scratch).1 ∧
    (s.commitScratch.undoLayers = s.undoLayers ++ [(s.committed.apply s.scratch).2]
      ↔ 0 < (s.committed.apply s.scratch).2.size) ∧
    (s.commitScratch.undoLayers = s.undoLayers
      ↔ ¬ 0 < (s.committed.apply s.scratch).2.size) ∧
    s.commitScratch.redoLayers = [] ∧
    s.commitScratch.scratch = Layer.empty := by
  refine ⟨rfl, ?_, ?_, rfl, rfl⟩ <;>
      by_cases hsz : 0 < (s.committed.apply s.scratch).2.size <;>
      simp [CanvasStore.commitScratch, hsz]

/-- C3: with an empty undo stack `undo()` is a no-op leaving the whole
state (committed, scratch and both stacks) unchanged, and symmetrically for
`redo()` with an empty redo stack; both are total functions, so no error is
raised. -/
theorem undo_redo_empty_noop (s : CanvasStore) :
    (s.undoLayers = [] → s.undo = s) ∧ (s.redoLayers = [] → s.redo = s) := by
  constructor <;> intro h <;> simp [CanvasStore.undo, CanvasStore.redo, h]

/-- Witness for C3 on a concrete state with empty stacks. -/
theorem undo_redo_empty_noop_witness :
    (CanvasStore.mk Layer.empty Layer.empty [] [] none).undoLayers = [] ∧
    (CanvasStore.mk Layer.empty Layer.empty [] [] none).redoLayers = [] ∧
    (CanvasStore.mk Layer.empty Layer.empty [] [] none).undo =
      CanvasStore.mk Layer.empty Layer.empty [] [] none ∧
    (CanvasStore.mk Layer.empty Layer.empty [] [] none).redo =
      CanvasStore.mk Layer.empty Layer.empty [] [] none :=
  ⟨rfl, rfl,
    (undo_redo_empty_noop _).1 rfl,
    (undo_redo_empty_noop _).2 rfl⟩

/-- C10: on Ctrl/Cmd+Z without shift while scratch is non-empty, the
controller performs tool cleanup, clears scratch and selection, leaves the
committed layer and the undo stack untouched, and does not call `undo()`;
`undo()` is called only when scratch is empty. -/
theorem handleKeyDownZ_discards_scratch (s : CanvasStore)
    (h : 0 < s.scratch.size) :
    (Controller.handleKeyDownZ s false).toolCleanupCalled = true ∧
    (Controller.handleKeyDownZ s false).undoCalled = false ∧
    (Controller.handleKeyDownZ s false).state.committed = s.committed ∧
    (Controller.handleKeyDownZ s false).state.undoLayers = s.undoLayers ∧
    (Controller.handleKeyDownZ s false).state.scratch = Layer.empty ∧
    (Controller.handleKeyDownZ s false).state.selection = none ∧
    (∀ s' : CanvasStore, ∀ shift : Bool,
      (Controller.handleKeyDownZ s' shift).undoCalled = true → s'.scratch.size = 0) := by
  have hmain : Controller.handleKeyDownZ s false =
      ⟨{ s with scratch := Layer.empty, selection := none }, true, false, false⟩ := by
    simp [Controller.handleKeyDownZ, h, CanvasStore.clearScratch,
      CanvasStore.clearSelection]
  refine ⟨by rw [hmain], by rw [hmain], by rw [hmain], by rw [hmain],
    by rw [hmain], by rw [hmain], ?_⟩
  intro s' shift hcall
  cases shift with
  | true => simp [Controller.handleKeyDownZ] at hcall
  | false =>
    by_cases hsz : 0 < s'.scratch.size
    · simp [Controller.handleKeyDownZ, hsz] at hcall
    · omega

/-- Witness for C10 on a concrete state with one scratch cell. -/
theorem handleKeyDownZ_discards_scratch_witness :
    0 < (CanvasStore.mk Layer.empty (Layer.empty.set ⟨1, 1⟩ [' ']) [] [] none).scratch.size ∧
    (Controller.handleKeyDownZ
      (CanvasStore.mk Layer.empty (Layer.empty.set ⟨1, 1⟩ [' ']) [] [] none)
      false).toolCleanupCalled = true :=
  ⟨by decide,
    (handleKeyDownZ_discards_scratch
      (CanvasStore.mk Layer.empty (Layer.empty.set ⟨1, 1⟩ [' ']) [] [] none)
      (by decide)).1⟩

/-- Round trip of the frame/screen linear maps (exact over ℚ when zoom is
non-zero). -/
theorem screenToFrame_frameToScreen (env : ViewEnv) (hz : env.zoom ≠ 0)
    (p : ℚ × ℚ) : screenToFrame env (frameToScreen env p) = p := by
  obtain ⟨a, b⟩ := p
  simp only [screenToFrame, frameToScreen]
  have h1 : ((a - env.offsetX) * env.zoom + env.clientWidth / 2
      - env.clientWidth / 2) / env.zoom + env.offsetX = a := by
    field_simp
  have h2 : ((b - env.offsetY) * env.zoom + env.clientHeight / 2
      - env.clientHeight / 2) / env.zoom + env.offsetY = b := by
    field_simp
  rw [h1, h2]

/-- C6 (amended): `frameToCell` clamps every input — in-bounds or not —
into `[1, MAX_GRID_WIDTH − 2] × [1, MAX_GRID_HEIGHT − 2]`, and is computed
by rounding to nearest after a half-cell horizontal bias `−H/2` and a
half-cell vertical bias `+V/2` are applied before dividing by `H` resp.
`V`.  (Grid limits of at least 3 make the clamp interval non-empty.) -/
theorem frameToCell_in_bounds (env : ViewEnv) (v : ℚ × ℚ)
    (hW : 3 ≤ env.maxGridWidth) (hH : 3 ≤ env.maxGridHeight) :
    (1 ≤ (frameToCell env v).x ∧ (frameToCell env v).x ≤ (env.maxGridWidth : ℤ) - 2) ∧
    (1 ≤ (frameToCell env v).y ∧ (frameToCell env v).y ≤ (env.maxGridHeight : ℤ) - 2) ∧
    frameToCell env v =
      ⟨min (max 1 (jsRound ((v.1 - (env.charPixelsH : ℚ) / 2) / env.charPixelsH)))
          ((env.maxGridWidth : ℤ) - 2),
       min (max 1 (jsRound ((v.2 + (env.charPixelsV : ℚ) / 2) / env.charPixelsV)))
          ((env.maxGridHeight : ℤ) - 2)⟩ := by
  have hW' : (1 : ℤ) ≤ (env.maxGridWidth : ℤ) - 2 := by
    have : (3 : ℤ) ≤ (env.maxGridWidth : ℤ) := by exact_mod_cast hW
    omega
  have hH' : (1 : ℤ) ≤ (env.maxGridHeight : ℤ) - 2 := by
    have : (3 : ℤ) ≤ (env.maxGridHeight : ℤ) := by exact_mod_cast hH
    omega
  refine ⟨⟨?_, ?_⟩, ⟨?_, ?_⟩, rfl⟩
  · exact le_min (le_max_left _ _) hW'
  · exact min_le_right _ _
  · exact le_min (le_max_left _ _) hH'
  · exact min_le_right _ _

/-- Witness for C6 at a concrete environment and an out-of-bounds input. -/
theorem frameToCell_in_bounds_witness :
    3 ≤ 2000 ∧ 3 ≤ 600 ∧
    (1 ≤ (frameToCell ⟨1, 0, 0, 1000, 1000, 9, 18, 2000, 600⟩ (-50, 99999)).x ∧
      (frameToCell ⟨1, 0, 0, 1000, 1000, 9, 18, 2000, 600⟩ (-50, 99999)).x ≤ (2000 : ℤ) - 2) ∧
    (1 ≤ (frameToCell ⟨1, 0, 0, 1000, 1000, 9, 18, 2000, 600⟩ (-50, 99999)).y ∧
      (frameToCell ⟨1, 0, 0, 1000, 1000, 9, 18, 2000, 600⟩ (-50, 99999)).y ≤ (600 : ℤ) - 2) := by
  refine ⟨by norm_num, by norm_num, ?_, ?_⟩
  · exact ((frameToCell_in_bounds ⟨1, 0, 0, 1000, 1000, 9, 18, 2000, 600⟩
      (-50, 99999) (by norm_num) (by norm_num)).1)
  · exact ((frameToCell_in_bounds ⟨1, 0, 0, 1000, 1000, 9, 18, 2000, 600⟩
      (-50, 99999) (by norm_num) (by norm_num)).2.1)

/-- Counterexample for C6 as stated: at frame abscissa 14 with the default
cell width `H = 9`, the code computes `round((14 − 4.5)/9) = 1` while the
computation described by the claim (divide by `H` with no horizontal bias)
gives `round(14/9) = 2`. -/
theorem frameToCell_specC6_counterexample :
    frameToCell ⟨1, 0, 0, 1000, 1000, 9, 18, 2000, 600⟩ (14, 30) ≠
      frameToCellSpecC6 ⟨1, 0, 0, 1000, 1000, 9, 18, 2000, 600⟩ (14, 30) := by
  have e1 : frameToCell ⟨1, 0, 0, 1000, 1000, 9, 18, 2000, 600⟩ (14, 30) = ⟨1, 2⟩ := by
    have h1 : jsRound ((14 - ((9 : ℕ) : ℚ) / 2) / ((9 : ℕ) : ℚ)) = 1 := by
      norm_num [jsRound]
    have h2 : jsRound ((30 + ((18 : ℕ) : ℚ) / 2) / ((18 : ℕ) : ℚ)) = 2 := by
      norm_num [jsRound]
    simp only [frameToCell]
    rw [h1, h2]
    decide
  have e2 : frameToCellSpecC6 ⟨1, 0, 0, 1000, 1000, 9, 18, 2000, 600⟩ (14, 30) = ⟨2, 2⟩ := by
    have h1 : jsRound ((14 : ℚ) / ((9 : ℕ) : ℚ)) = 2 := by
      norm_num [jsRound]
    have h2 : jsRound ((30 + ((18 : ℕ) : ℚ) / 2) / ((18 : ℕ) : ℚ)) = 2 := by
      norm_num [jsRound]
    simp only [frameToCellSpecC6]
    rw [h1, h2]
    decide
  rw [e1, e2]
  decide

/-- C5 (amended): the cell→screen→cell composite is not the identity: for
every cell `c` with `1 ≤ c.x ≤ MAX_GRID_WIDTH − 2`, `1 ≤ c.y` and
`c.y + 1 ≤ MAX_GRID_HEIGHT − 2`, and any non-zero zoom,
`screenToCell(cellToScreen(c))` returns the cell exactly one row below `c`:
`cellToFrame` anchors a cell at `y·V` (its baseline) while `frameToCell`
adds the `+V/2` bias, so the vertical round-trip lands at `c.y + 1`; the
horizontal coordinate round-trips exactly.  (Only on the clamped bottom row
`c.y = MAX_GRID_HEIGHT − 2` does clamping make the composite coincide
with `c`.) -/
theorem screenToCell_cellToScreen_off_by_one_row (env : ViewEnv) (c : Vector)
    (hz : env.zoom ≠ 0) (hH : 0 < env.charPixelsH) (hV : 0 < env.charPixelsV)
    (hx1 : 1 ≤ c.x) (hx2 : c.x ≤ (env.maxGridWidth : ℤ) - 2)
    (hy1 : 1 ≤ c.y) (hy2 : c.y + 1 ≤ (env.maxGridHeight : ℤ) - 2) :
    screenToCell env (cellToScreen env c) = ⟨c.x, c.y + 1⟩ := by
  have hHQ : ((env.charPixelsH : ℚ)) ≠ 0 := Nat.cast_ne_zero.mpr hH.ne'
  have hVQ : ((env.charPixelsV : ℚ)) ≠ 0 := Nat.cast_ne_zero.mpr hV.ne'
  have hcf : cellToFrame env c = ⟨c.x * env.charPixelsH, c.y * env.charPixelsV⟩ := by
    simp only [cellToFrame]
    have ex : ((c.x : ℚ) * (env.charPixelsH : ℚ)) = ((c.x * env.charPixelsH : ℤ) : ℚ) := by
      push_cast; ring
    have ey : ((c.y : ℚ) * (env.charPixelsV : ℚ)) = ((c.y * env.charPixelsV : ℤ) : ℚ) := by
      push_cast; ring
    rw [ex, ey, jsRound_intCast, jsRound_intCast]
  rw [screenToCell, cellToScreen, hcf]
  rw [screenToFrame_frameToScreen env hz]
  show frameToCell env (((c.x * env.charPixelsH : ℤ) : ℚ), ((c.y * env.charPixelsV : ℤ) : ℚ))
      = Vector.mk c.x (c.y + 1)
  have ex : (((c.x * env.charPixelsH : ℤ) : ℚ) - (env.charPixelsH : ℚ) / 2)
      / (env.charPixelsH : ℚ) = (c.x : ℚ) - 1 / 2 := by
    field_simp
    ring
  have ey : (((c.y * env.charPixelsV : ℤ) : ℚ) + (env.charPixelsV : ℚ) / 2)
      / (env.charPixelsV : ℚ) = (c.y : ℚ) + 1 / 2 := by
    field_simp
    ring
  simp only [frameToCell]
  rw [ex, ey, jsRound_intCast_sub_half, jsRound_intCast_add_half]
  have hx : min (max 1 c.x) ((env.maxGridWidth : ℤ) - 2) = c.x := by
    rw [max_eq_right hx1, min_eq_left hx2]
  have hy : min (max 1 (c.y + 1)) ((env.maxGridHeight : ℤ) - 2) = c.y + 1 := by
    rw [max_eq_right (by omega), min_eq_left hy2]
  rw [hx, hy]

/-- Witness for the amended C5 at a concrete environment and cell. -/
theorem screenToCell_cellToScreen_off_by_one_row_witness :
    ((1 : ℚ) ≠ 0 ∧ 0 < 9 ∧ 0 < 18 ∧ (1 : ℤ) ≤ 5 ∧ (5 : ℤ) ≤ 2000 - 2 ∧
      (5 : ℤ) + 1 ≤ 600 - 2) ∧
    screenToCell ⟨1, 0, 0, 1000, 1000, 9, 18, 2000, 600⟩
      (cellToScreen ⟨1, 0, 0, 1000, 1000, 9, 18, 2000, 600⟩ ⟨5, 5⟩) = ⟨5, 5 + 1⟩ :=
  ⟨⟨by norm_num, by norm_num, by norm_num, by norm_num, by norm_num, by norm_num⟩,
    screenToCell_cellToScreen_off_by_one_row ⟨1, 0, 0, 1000, 1000, 9, 18, 2000, 600⟩
      ⟨5, 5⟩ (by norm_num) (by norm_num) (by norm_num)
      (by norm_num) (by norm_num) (by norm_num) (by norm_num)⟩

/-- Counterexample for C5 as stated: at zoom 1, centered offset 0, default
font metrics `H = 9`, `V = 18` and grid limits 2000 × 600, the interior
cell `(5, 5)` comes back from the screen round trip as `(5, 6)`. -/
theorem screenToCell_cellToScreen_counterexample :
    screenToCell ⟨1, 0, 0, 1000, 1000, 9, 18, 2000, 600⟩
      (cellToScreen ⟨1, 0, 0, 1000, 1000, 9, 18, 2000, 600⟩ ⟨5, 5⟩) ≠ ⟨5, 5⟩ := by
  have e1 : cellToFrame ⟨1, 0, 0, 1000, 1000, 9, 18, 2000, 600⟩ ⟨5, 5⟩ = ⟨45, 90⟩ := by
    simp only [cellToFrame]
    have h1 : jsRound ((5 : ℚ) * ((9 : ℕ) : ℚ)) = 45 := by norm_num [jsRound]
    have h2 : jsRound ((5 : ℚ) * ((18 : ℕ) : ℚ)) = 90 := by norm_num [jsRound]
    rw [show (((5 : ℤ) : ℚ)) = (5 : ℚ) by norm_num] at *
    rw [h1, h2]
  rw [screenToCell, cellToScreen, e1]
  rw [screenToFrame_frameToScreen _ (by norm_num)]
  show frameToCell ⟨1, 0, 0, 1000, 1000, 9, 18, 2000, 600⟩
      (((45 : ℤ) : ℚ), ((90 : ℤ) : ℚ)) ≠ Vector.mk 5 5
  have h1 : jsRound ((((45 : ℤ) : ℚ) - ((9 : ℕ) : ℚ) / 2) / ((9 : ℕ) : ℚ)) = 5 := by
    norm_num [jsRound]
  have h2 : jsRound ((((90 : ℤ) : ℚ) + ((18 : ℕ) : ℚ) / 2) / ((18 : ℕ) : ℚ)) = 6 := by
    norm_num [jsRound]
  simp only [frameToCell]
  rw [h1, h2]
  decide

/-! ### Layer algebra (towards the undo inverse property) -/

/-- Lookup in the list produced by an in-place update. -/
theorem find_map_update (m : List (Vector × Str)) (v w : Vector) (ch : Str) :
    (m.map (fun kv => if kv.1 = v then (v, ch) else kv)).find?
        (fun kv => kv.1 = w)
      = if w = v then (if m.any (fun kv => kv.1 = v) then some (v, ch) else none)
        else m.find? (fun kv => kv.1 = w) := by
  induction m with
  | nil => by_cases hwv : w = v <;> simp [hwv]
  | cons kv rest ih =>
    simp only [List.map_cons, List.any_cons]
    by_cases hk : kv.1 = v
    · by_cases hwv : w = v
      · subst hwv
        simp [hk]
      · have hvw : ¬ v = w := Ne.symm hwv
        rw [List.find?_cons_of_neg _ (by simp [hk, hvw]),
          List.find?_cons_of_neg _ (by simp [hk, hvw]), ih]
        simp [hwv]
    · by_cases hw : kv.1 = w
      · have hwv : ¬ w = v := fun h => hk (by rw [hw, h])
        rw [List.find?_cons_of_pos _ (by simp [hk, hw, hwv]),
          List.find?_cons_of_pos _ (by simp [hw])]
        simp [hwv, hk]
      · rw [List.find?_cons_of_neg _ (by simp [hk, hw]),
          List.find?_cons_of_neg _ (by simp [hw]), ih]
        have hany : (decide (kv.1 = v) || rest.any fun kv => decide (kv.1 = v))
            = (rest.any fun kv => decide (kv.1 = v)) := by
          rw [decide_eq_false hk, Bool.false_or]
        simp only [hany]

/-- Lookup after `set`: the written key reads back the written value and
every other key is untouched. -/
theorem Layer.get_set (l : Layer) (v w : Vector) (ch : Str) :
    (l.set v ch).get w = if w = v then some ch else l.get w := by
  unfold Layer.set Layer.get
  by_cases h : l.map.any (fun kv => kv.1 = v)
  · rw [if_pos h]
    simp only
    rw [find_map_update, if_pos h]
    by_cases hwv : w = v <;> simp [hwv]
  · rw [if_neg h]
    simp only
    rw [List.find?_append]
    by_cases hwv : w = v
    · subst hwv
      have hnone : l.map.find? (fun kv => kv.1 = w) = none := by
        rw [List.find?_eq_none]
        intro kv hkv
        by_contra hcon
        exact absurd (List.any_eq_true.mpr ⟨kv, hkv, by simpa using hcon⟩) h
      simp [hnone]
    · have hvw : ¬ v = w := Ne.symm hwv
      by_cases hfind : (l.map.find? (fun kv => kv.1 = w)).isSome
      · obtain ⟨kv, hkv⟩ := Option.isSome_iff_exists.mp hfind
        simp [hkv, hwv]
      · rw [Option.not_isSome_iff_eq_none] at hfind
        simp [hfind, hwv, hvw]

/-- Lookup after `delete`: the deleted key is absent and every other key is
untouched. -/
theorem Layer.get_delete (l : Layer) (v w : Vector) :
    (l.delete v).get w = if w = v then none else l.get w := by
  unfold Layer.delete Layer.get
  simp only
  induction l.map with
  | nil => by_cases hwv : w = v <;> simp [hwv]
  | cons kv rest ih =>
    by_cases hk : kv.1 = v
    · rw [List.filter_cons_of_neg (by simp [hk])]
      by_cases hwv : w = v
      · subst hwv
        rw [ih]
        simp
      · have hvw : ¬ v = w := Ne.symm hwv
        rw [ih, List.find?_cons_of_neg _ (by simp [hk, hvw])]
    · rw [List.filter_cons_of_pos (by simp [hk])]
      by_cases hw : kv.1 = w
      · have hwv : ¬ w = v := fun h => hk (by rw [hw, h])
        rw [List.find?_cons_of_pos _ (by simp [hw]),
          List.find?_cons_of_pos _ (by simp [hw])]
        simp [hwv]
      · rw [List.find?_cons_of_neg _ (by simp [hw]),
          List.find?_cons_of_neg _ (by simp [hw]), ih]

/-- Entries after `set` come from the written pair or from the old list. -/
theorem Layer.mem_set_elim (l : Layer) (v : Vector) (ch : Str) (kv : Vector × Str)
    (h : kv ∈ (l.set v ch).map) : kv = (v, ch) ∨ kv ∈ l.map := by
  unfold Layer.set at h
  by_cases hany : l.map.any (fun kv => kv.1 = v)
  · rw [if_pos hany] at h
    obtain ⟨kv0, hkv0, heq⟩ := List.mem_map.mp h
    by_cases hk : kv0.1 = v
    · left
      rw [← heq, if_pos hk]
    · right
      rw [← heq, if_neg hk]
      exact hkv0
  · rw [if_neg hany] at h
    rcases List.mem_append.mp h with h | h
    · right
      exact h
    · left
      simpa using h

/-- A Boolean that is not `true` is `false`. -/
theorem bool_eq_false_of_not_true {b : Bool} (h : ¬ b = true) : b = false := by
  cases b
  · rfl
  · exact absurd rfl h

/-- Lookup of the fold of `set`s that builds the inverse delta: the value
written at a key is the base lookup of that key (absence recorded as the
empty-string marker). -/
theorem get_foldl_set (d : List (Vector × Str)) (L : Layer) (acc : Layer)
    (w : Vector) :
    (d.foldl (fun acc kv => acc.set kv.1 ((L.get kv.1).getD [])) acc).get w
      = if (d.any (fun kv => kv.1 = w)) = true
        then some ((L.get w).getD []) else acc.get w := by
  induction d generalizing acc with
  | nil => simp
  | cons kv0 rest ih =>
    simp only [List.foldl_cons, List.any_cons]
    rw [ih]
    by_cases hr : (rest.any (fun kv => kv.1 = w)) = true
    · have hall : (decide (kv0.1 = w) || rest.any fun kv => decide (kv.1 = w)) = true := by
        rw [hr, Bool.or_true]
      rw [if_pos hr, if_pos hall]
    · by_cases hk : kv0.1 = w
      · have hall : (decide (kv0.1 = w) || rest.any fun kv => decide (kv.1 = w)) = true := by
          rw [decide_eq_true hk, Bool.true_or]
        rw [if_neg hr, if_pos hall, Layer.get_set, if_pos hk.symm, hk]
      · have hr' : (rest.any fun kv => decide (kv.1 = w)) = false :=
          bool_eq_false_of_not_true hr
        have hall : (decide (kv0.1 = w) || rest.any fun kv => decide (kv.1 = w)) = false := by
          rw [decide_eq_false hk, hr', Bool.or_false]
        rw [if_neg hr, if_neg (by rw [hall]; simp), Layer.get_set,
          if_neg (fun h : w = kv0.1 => hk h.symm)]

/-- The fold of `set`s that builds the inverse delta only stores, at each
key, the base lookup of that key. -/
theorem values_foldl_set (d : List (Vector × Str)) (L : Layer) (acc : Layer)
    (hacc : ∀ kv ∈ acc.map, kv.2 = (L.get kv.1).getD []) :
    ∀ kv ∈ (d.foldl (fun acc kv => acc.set kv.1 ((L.get kv.1).getD [])) acc).map,
      kv.2 = (L.get kv.1).getD [] := by
  induction d generalizing acc with
  | nil => exact hacc
  | cons kv0 rest ih =>
    intro kv hkv
    refine ih _ ?_ kv hkv
    intro kv1 hkv1
    rcases Layer.mem_set_elim _ _ _ _ hkv1 with h | h
    · rw [h]
    · exact hacc _ h

/-- The fold at the heart of `apply` leaves keys outside the delta alone. -/
theorem get_foldl_apply_untouched (d : List (Vector × Str)) (acc : Layer) (w : Vector)
    (hw : ¬ (d.any (fun kv => kv.1 = w)) = true) :
    (d.foldl
        (fun acc kv => if kv.2 = [] then acc.delete kv.1 else acc.set kv.1 kv.2)
        acc).get w = acc.get w := by
  induction d generalizing acc with
  | nil => rfl
  | cons kv0 rest ih =>
    rw [List.any_cons, Bool.or_eq_true] at hw
    obtain ⟨hk, hrest⟩ := not_or.mp hw
    have hk' : ¬ kv0.1 = w := by simpa using hk
    simp only [List.foldl_cons]
    rw [ih _ hrest]
    by_cases hv : kv0.2 = []
    · rw [if_pos hv, Layer.get_delete, if_neg (fun h : w = kv0.1 => hk' h.symm)]
    · rw [if_neg hv, Layer.get_set, if_neg (fun h : w = kv0.1 => hk' h.symm)]

/-- Lookup of the `apply` fold when every delta entry carries `f` of its
key: inside the delta the result is `f` of the key (deletion when the
marker `""`), outside it the base is untouched. -/
theorem get_foldl_apply_uniform (d : List (Vector × Str)) (f : Vector → Str)
    (acc : Layer) (hvals : ∀ kv ∈ d, kv.2 = f kv.1) (w : Vector) :
    (d.foldl
        (fun acc kv => if kv.2 = [] then acc.delete kv.1 else acc.set kv.1 kv.2)
        acc).get w
      = if (d.any (fun kv => kv.1 = w)) = true
        then (if f w = [] then none else some (f w))
        else acc.get w := by
  induction d generalizing acc with
  | nil => simp
  | cons kv0 rest ih =>
    have hv0 : kv0.2 = f kv0.1 := hvals kv0 (List.mem_cons_self _ _)
    simp only [List.foldl_cons, List.any_cons]
    rw [ih _ (fun kv h => hvals kv (List.mem_cons_of_mem _ h))]
    by_cases hr : (rest.any (fun kv => kv.1 = w)) = true
    · have hall : (decide (kv0.1 = w) || rest.any fun kv => decide (kv.1 = w)) = true := by
        rw [hr, Bool.or_true]
      rw [if_pos hr, if_pos hall]
    · by_cases hk : kv0.1 = w
      · have hall : (decide (kv0.1 = w) || rest.any fun kv => decide (kv.1 = w)) = true := by
          rw [decide_eq_true hk, Bool.true_or]
        rw [if_neg hr, if_pos hall, hv0, hk]
        by_cases hfw : f w = []
        · rw [if_pos hfw, Layer.get_delete, if_pos rfl, if_pos hfw]
        · rw [if_neg hfw, Layer.get_set, if_pos rfl, if_neg hfw]
      · have hr' : (rest.any fun kv => decide (kv.1 = w)) = false :=
          bool_eq_false_of_not_true hr
        have hall : (decide (kv0.1 = w) || rest.any fun kv => decide (kv.1 = w)) = false := by
          rw [decide_eq_false hk, hr', Bool.or_false]
        rw [if_neg hr]
        simp only [hall]
        rw [if_neg Bool.false_ne_true]
        by_cases hv : kv0.2 = []
        · rw [if_pos hv, Layer.get_delete, if_neg (fun h : w = kv0.1 => hk h.symm)]
        · rw [if_neg hv, Layer.get_set, if_neg (fun h : w = kv0.1 => hk h.symm)]

/-- A key is in `keys()` exactly when `get` returns a value. -/
theorem Layer.mem_keys_iff_get (l : Layer) (w : Vector) :
    w ∈ l.keys ↔ ∃ s, l.get w = some s := by
  unfold Layer.keys Layer.get
  constructor
  · intro h
    obtain ⟨kv, hkv, heq⟩ := List.mem_map.mp h
    have hsome : (l.map.find? (fun kv => kv.1 = w)).isSome := by
      rw [List.find?_isSome]
      exact ⟨kv, hkv, by simp [heq]⟩
    obtain ⟨kv1, hkv1⟩ := Option.isSome_iff_exists.mp hsome
    exact ⟨kv1.2, by rw [hkv1]; rfl⟩
  · intro ⟨s, hs⟩
    cases hfind : l.map.find? (fun kv => kv.1 = w) with
    | none => rw [hfind] at hs; exact absurd hs (by simp)
    | some kv =>
      have hmem := List.mem_of_find?_eq_some hfind
      have hp := List.find?_some hfind
      exact List.mem_map.mpr ⟨kv, hmem, by simpa using hp⟩

/-- A key matches some entry exactly when `get` returns a value. -/
theorem Layer.any_iff_get_isSome (l : Layer) (w : Vector) :
    (l.map.any (fun kv => kv.1 = w)) = true ↔ ∃ s, l.get w = some s := by
  rw [List.any_eq_true]
  constructor
  · intro ⟨kv, hmem, hp⟩
    have hsome : (l.map.find? (fun kv => kv.1 = w)).isSome :=
      List.find?_isSome.mpr ⟨kv, hmem, hp⟩
    obtain ⟨kv1, h1⟩ := Option.isSome_iff_exists.mp hsome
    refine ⟨kv1.2, ?_⟩
    unfold Layer.get
    rw [h1]
    rfl
  · intro ⟨s, hs⟩
    unfold Layer.get at hs
    cases hfind : l.map.find? (fun kv => kv.1 = w) with
    | none => rw [hfind] at hs; exact absurd hs (by simp)
    | some kv =>
      have hp := List.find?_some hfind
      exact ⟨kv, List.mem_of_find?_eq_some hfind, hp⟩

/-- C1: for every Layer `L` satisfying the data-model invariant (stored
values are non-empty — the empty string is the reserved deletion marker)
and every delta Layer `D`, applying `D` and then applying the returned
inverse delta restores `L` exactly: every cell reads back the original
value (including cells that were absent and cells the delta deletes), and
the key set is restored exactly. -/
theorem apply_undo_restores (L D : Layer) (hL : L.nonEmptyValues) :
    (∀ w, ((L.apply D).1.apply ((L.apply D).2)).1.get w = L.get w) ∧
    (∀ w, w ∈ ((L.apply D).1.apply ((L.apply D).2)).1.keys ↔ w ∈ L.keys) := by
  have hIvals : ∀ kv ∈ ((L.apply D).2).map, kv.2 = (L.get kv.1).getD [] := by
    refine values_foldl_set D.map L Layer.empty ?_
    intro kv h
    exact absurd h (by simp [Layer.empty])
  have hIget : ∀ w, ((L.apply D).2).get w
      = if (D.map.any (fun kv => kv.1 = w)) = true
        then some ((L.get w).getD []) else none := by
    intro w
    rw [show (L.apply D).2
        = D.map.foldl (fun acc kv => acc.set kv.1 ((L.get kv.1).getD [])) Layer.empty
        from rfl, get_foldl_set]
    by_cases hD : (D.map.any (fun kv => kv.1 = w)) = true
    · rw [if_pos hD, if_pos hD]
    · rw [if_neg hD, if_neg hD]
      rfl
  have hmain : ∀ w, ((L.apply D).1.apply ((L.apply D).2)).1.get w = L.get w := by
    intro w
    rw [show ((L.apply D).1.apply ((L.apply D).2)).1
        = ((L.apply D).2).map.foldl
            (fun acc kv => if kv.2 = [] then acc.delete kv.1 else acc.set kv.1 kv.2)
            (L.apply D).1
        from rfl]
    rw [get_foldl_apply_uniform ((L.apply D).2).map (fun k => (L.get k).getD [])
      (L.apply D).1 hIvals w]
    by_cases hD : (D.map.any (fun kv => kv.1 = w)) = true
    · have hIw : ((L.apply D).2).get w = some ((L.get w).getD []) := by
        rw [hIget w, if_pos hD]
      have hany : (((L.apply D).2).map.any (fun kv => kv.1 = w)) = true :=
        (Layer.any_iff_get_isSome _ w).mpr ⟨_, hIw⟩
      rw [if_pos hany]
      cases hLw : L.get w with
      | none => simp [hLw]
      | some s => simp [hLw, hL w s hLw]
    · have hIw : ((L.apply D).2).get w = none := by
        rw [hIget w, if_neg hD]
      have hnotany : ¬ (((L.apply D).2).map.any (fun kv => kv.1 = w)) = true := by
        intro hany
        obtain ⟨s, hs⟩ := (Layer.any_iff_get_isSome _ w).mp hany
        rw [hIw] at hs
        exact absurd hs (by simp)
      rw [if_neg hnotany]
      exact get_foldl_apply_untouched D.map L w hD
  refine ⟨hmain, fun w => ?_⟩
  rw [Layer.mem_keys_iff_get, Layer.mem_keys_iff_get, hmain w]

/-- Witness for C1: a one-cell layer, a delta that overwrites that cell,
deletes it, and writes a fresh cell; undo restores the original lookup. -/
theorem apply_undo_restores_witness :
    (Layer.empty.set ⟨1, 1⟩ ['A']).nonEmptyValues ∧
    (((Layer.empty.set ⟨1, 1⟩ ['A']).apply
          ((Layer.empty.set ⟨1, 1⟩ []).set ⟨3, 3⟩ ['D'])).1.apply
        ((Layer.empty.set ⟨1, 1⟩ ['A']).apply
          ((Layer.empty.set ⟨1, 1⟩ []).set ⟨3, 3⟩ ['D'])).2).1.get ⟨3, 3⟩
      = (Layer.empty.set ⟨1, 1⟩ ['A']).get ⟨3, 3⟩ := by
  have hL : (Layer.empty.set ⟨1, 1⟩ ['A']).nonEmptyValues := by
    intro p s h
    rw [Layer.get_set] at h
    by_cases hp : p = ⟨1, 1⟩
    · rw [if_pos hp] at h
      injection h with h1
      rw [← h1]
      decide
    · rw [if_neg hp] at h
      exact absurd h (by simp [Layer.empty, Layer.get])
  exact ⟨hL,
    (apply_undo_restores (Layer.empty.set ⟨1, 1⟩ ['A'])
      ((Layer.empty.set ⟨1, 1⟩ []).set ⟨3, 3⟩ ['D']) hL).1 ⟨3, 3⟩⟩

/-- Entries produced by a fold either satisfy the per-step guarantee or were
present before the fold. -/
theorem foldl_step_mem {α : Type} (P : Vector × Str → Prop) (xs : List α)
    (step : Layer → α → Layer)
    (hstep : ∀ acc x kv, kv ∈ (step acc x).map → P kv ∨ kv ∈ acc.map) (l : Layer) :
    ∀ kv ∈ (xs.foldl step l).map, P kv ∨ kv ∈ l.map := by
  induction xs generalizing l with
  | nil => exact fun kv h => Or.inr h
  | cons x rest ih =>
    intro kv hkv
    rcases ih (step l x) kv hkv with h | h
    · exact Or.inl h
    · rcases hstep l x kv h with h2 | h2
      · exact Or.inl h2
      · exact Or.inr h2

/-- Every entry stored by `textToLayer` is a single character passing the
keep guard (not a space, not ASCII 0–31, not 127). -/
theorem textToLayer_stores_only_kept (value : Str) (offset : Vector) :
    ∀ kv ∈ (textToLayer value offset).map, ∃ c, kv.2 = [c] ∧ keepChar c := by
  have hinner : ∀ (j : ℕ) (line : Str) (acc : Layer) (kv : Vector × Str),
      kv ∈ (line.enum.foldl
        (fun l ichar => if keepChar ichar.2 then
            l.set ((Vector.mk ichar.1 j).add offset) [ichar.2] else l) acc).map →
      (∃ c, kv.2 = [c] ∧ keepChar c) ∨ kv ∈ acc.map := by
    intro j line acc kv hkv
    refine foldl_step_mem (fun kv => ∃ c, kv.2 = [c] ∧ keepChar c) _ _ ?_ acc kv hkv
    intro acc2 ichar kv2 hkv2
    by_cases hkeep : keepChar ichar.2
    · rw [if_pos hkeep] at hkv2
      rcases Layer.mem_set_elim _ _ _ _ hkv2 with h | h
      · exact Or.inl ⟨ichar.2, by rw [h], hkeep⟩
      · exact Or.inr h
    · rw [if_neg hkeep] at hkv2
      exact Or.inr hkv2
  intro kv hkv
  unfold textToLayer at hkv
  rcases foldl_step_mem (fun kv => ∃ c, kv.2 = [c] ∧ keepChar c) _ _
      (fun acc jline kv2 hkv2 => hinner jline.1 jline.2 acc kv2 hkv2)
      Layer.empty kv hkv with h | h
  · exact h
  · exact absurd h (by simp [Layer.empty])

/-- C8: control characters (ASCII 0–31 and 127) and literal spaces are
never stored by `textToLayer`: every stored value is a single character
that is not a space and not a control character — so positions whose source
character is a space or control character read back as absent. -/
theorem textToLayer_no_space_or_control (value : Str) (offset : Vector)
    (p : Vector) (s : Str) (h : (textToLayer value offset).get p = some s) :
    ∃ c, s = [c] ∧ c ≠ ' ' ∧ 32 ≤ c.toNat ∧ c.toNat ≠ 127 := by
  unfold Layer.get at h
  cases hfind : (textToLayer value offset).map.find? (fun kv => kv.1 = p) with
  | none => rw [hfind] at h; exact absurd h (by simp)
  | some kv =>
    rw [hfind] at h
    have hmem := List.mem_of_find?_eq_some hfind
    obtain ⟨c, hc, hkeep⟩ := textToLayer_stores_only_kept value offset kv hmem
    have hs : kv.2 = s := by injection h
    obtain ⟨h1, h2, h3⟩ := hkeep
    exact ⟨c, by rw [← hs, hc], h1, h2, h3⟩

/-- Witness for C8: pasting `"A\x01 B"` stores only kept characters;
position `(0,0)` holds `A`, which passes every guard. -/
theorem textToLayer_no_space_or_control_witness :
    (textToLayer (str "A\x01 B") ⟨0, 0⟩).get ⟨0, 0⟩ = some ['A'] ∧
    ∃ c, (['A'] : Str) = [c] ∧ c ≠ ' ' ∧ 32 ≤ c.toNat ∧ c.toNat ≠ 127 :=
  ⟨by decide,
    textToLayer_no_space_or_control (str "A\x01 B") ⟨0, 0⟩ ⟨0, 0⟩ ['A'] (by decide)⟩

/-- Setting a fresh key appends its entry. -/
theorem Layer.map_set_append (l : Layer) (v : Vector) (ch : Str)
    (h : ¬ (l.map.any (fun kv => kv.1 = v)) = true) :
    (l.set v ch).map = l.map ++ [(v, ch)] := by
  unfold Layer.set
  rw [if_neg h]

/-- Two layers with the same entry list are equal. -/
theorem Layer.eq_of_map_eq {a b : Layer} (h : a.map = b.map) : a = b := by
  cases a
  cases b
  cases h
  rfl

/-- Loading a duplicate-free cell list by repeated `set` reproduces the
list itself (after any entries already present). -/
theorem foldl_set_cells (cells : List (Vector × Str)) (acc : Layer)
    (hdis : ∀ kv ∈ cells, ¬ (acc.map.any (fun kv2 => kv2.1 = kv.1)) = true)
    (hnodup : (cells.map (fun kv => kv.1)).Nodup) :
    (cells.foldl (fun l kv => l.set kv.1 kv.2) acc).map = acc.map ++ cells := by
  induction cells generalizing acc with
  | nil => simp
  | cons kv rest ih =>
    simp only [List.foldl_cons]
    have hset : (acc.set kv.1 kv.2).map = acc.map ++ [(kv.1, kv.2)] :=
      Layer.map_set_append _ _ _ (hdis kv (List.mem_cons_self _ _))
    obtain ⟨hhead, htail⟩ := List.nodup_cons.mp hnodup
    rw [ih (acc.set kv.1 kv.2) ?_ htail]
    · rw [hset]
      simp
    · intro kv2 hkv2
      intro hany
      rw [hset] at hany
      rcases List.any_eq_true.mp hany with ⟨kv3, hkv3, hp⟩
      rcases List.mem_append.mp hkv3 with h3 | h3
      · exact hdis kv2 (List.mem_cons_of_mem _ hkv2)
          (List.any_eq_true.mpr ⟨kv3, h3, hp⟩)
      · have h33 : kv3 = (kv.1, kv.2) := by simpa using h3
        have h31 : kv3.1 = kv2.1 := of_decide_eq_true hp
        rw [h33] at h31
        exact hhead (List.mem_map.mpr ⟨kv2, hkv2, h31.symm⟩)

/-- C7: encoding a Layer always produces the version-2 shape (decoded
version tag 2), decoding it back yields an equal Layer (hence set-equal
`entries()`), and the drawing codec preserves the drawing name. -/
theorem serialize_roundtrip (L : Layer) (dname : Option Str) (hWF : L.WF) :
    (Layer.serialize L).version = some 2 ∧
    Layer.deserialize (Layer.serialize L) = L ∧
    DrawingStringifier.deserialize (DrawingStringifier.serialize ⟨dname, L⟩)
      = ⟨dname, L⟩ := by
  have hde : Layer.deserialize (Layer.serialize L) = L := by
    show (L.map.foldl (fun l kv => l.set kv.1 kv.2) Layer.empty) = L
    refine Layer.eq_of_map_eq ?_
    rw [foldl_set_cells L.map Layer.empty ?_ hWF]
    · rfl
    · intro kv hkv
      simp [Layer.empty]
  refine ⟨rfl, hde, ?_⟩
  show (⟨dname, Layer.deserialize (Layer.serialize L)⟩ : Drawing) = ⟨dname, L⟩
  rw [hde]

/-- Witness for C7 on the layer of the v2 unit test: one cell `(5,10)`
holding `"++"`, drawing name `"box"`. -/
theorem serialize_roundtrip_witness :
    (Layer.empty.set ⟨5, 10⟩ (str "++")).WF ∧
    (Layer.serialize (Layer.empty.set ⟨5, 10⟩ (str "++"))).version = some 2 ∧
    Layer.deserialize (Layer.serialize (Layer.empty.set ⟨5, 10⟩ (str "++")))
      = Layer.empty.set ⟨5, 10⟩ (str "++") ∧
    DrawingStringifier.deserialize (DrawingStringifier.serialize
        ⟨some (str "box"), Layer.empty.set ⟨5, 10⟩ (str "++")⟩)
      = ⟨some (str "box"), Layer.empty.set ⟨5, 10⟩ (str "++")⟩ := by
  have hWF : (Layer.empty.set ⟨5, 10⟩ (str "++")).WF := by
    rw [Layer.WF]
    decide
  exact ⟨hWF, serialize_roundtrip (Layer.empty.set ⟨5, 10⟩ (str "++"))
    (some (str "box")) hWF⟩

/-! ### Text round trip (towards C4) -/

theorem normalizeNewlines_cons_ne (c : Char) (rest : Str) (hc : ¬ c = '\r') :
    normalizeNewlines (c :: rest) = c :: normalizeNewlines rest := by
  rw [normalizeNewlines.eq_def]
  split <;> simp_all

theorem normalizeNewlines_crlf (rest : Str) :
    normalizeNewlines ('\r' :: '\n' :: rest) = '\n' :: normalizeNewlines rest := rfl

theorem normalizeNewlines_cr (rest : Str) (h : ∀ d ∈ rest, ¬ d = '\n') :
    normalizeNewlines ('\r' :: rest) = '\n' :: normalizeNewlines rest := by
  cases rest with
  | nil => rfl
  | cons d r =>
    have hd : ¬ d = '\n' := h d (List.mem_cons_self _ _)
    rw [normalizeNewlines.eq_def]
    split
    · simp_all
    · simp_all
    · simp_all
    · rename_i hne heq
      injection heq with h1 h2
      exact absurd h1.symm hne

theorem normalizeNewlines_id (t : Str) (h : '\r' ∉ t) : normalizeNewlines t = t := by
  induction t with
  | nil => rfl
  | cons c rest ih =>
    have hc : ¬ c = '\r' := fun hh => h (hh ▸ List.mem_cons_self _ _)
    rw [normalizeNewlines_cons_ne c rest hc,
      ih (fun hm => h (List.mem_cons_of_mem _ hm))]

theorem normalizeNewlines_toCRLF (t : Str) (h : '\r' ∉ t) :
    normalizeNewlines (toCRLF t) = t := by
  induction t with
  | nil => rfl
  | cons c rest ih =>
    have hrest : '\r' ∉ rest := fun hm => h (List.mem_cons_of_mem _ hm)
    by_cases hc : c = '\n'
    · rw [toCRLF, hc]
      simp only [List.flatMap_cons, if_pos rfl]
      show normalizeNewlines ('\r' :: '\n' :: toCRLF rest) = '\n' :: rest
      rw [normalizeNewlines_crlf, ih hrest]
    · have hcr : ¬ c = '\r' := fun hh => h (hh ▸ List.mem_cons_self _ _)
      rw [toCRLF]
      simp only [List.flatMap_cons, if_neg hc]
      show normalizeNewlines (c :: toCRLF rest) = c :: rest
      rw [normalizeNewlines_cons_ne c _ hcr, ih hrest]

theorem toCR_no_newline (t : Str) : ∀ d ∈ toCR t, ¬ d = '\n' := by
  intro d hd
  obtain ⟨c, _, hc⟩ := List.mem_map.mp hd
  by_cases h : c = '\n'
  · rw [if_pos h] at hc
    rw [← hc]
    decide
  · rw [if_neg h] at hc
    rw [← hc]
    exact h

theorem normalizeNewlines_toCR (t : Str) (h : '\r' ∉ t) :
    normalizeNewlines (toCR t) = t := by
  induction t with
  | nil => rfl
  | cons c rest ih =>
    have hrest : '\r' ∉ rest := fun hm => h (List.mem_cons_of_mem _ hm)
    by_cases hc : c = '\n'
    · rw [toCR, hc]
      simp only [List.map_cons, if_pos rfl]
      show normalizeNewlines ('\r' :: toCR rest) = '\n' :: rest
      rw [normalizeNewlines_cr _ (toCR_no_newline rest), ih hrest]
    · have hcr : ¬ c = '\r' := fun hh => h (hh ▸ List.mem_cons_self _ _)
      rw [toCR]
      simp only [List.map_cons, if_neg hc]
      show normalizeNewlines (c :: toCR rest) = c :: rest
      rw [normalizeNewlines_cons_ne c _ hcr, ih hrest]

theorem splitNl_ne_nil (t : Str) : splitNl t ≠ [] := by
  cases t with
  | nil => simp [splitNl]
  | cons c rest =>
    rw [splitNl.eq_def]
    split <;> simp_all

theorem splitNl_cons_newline (rest : Str) :
    splitNl ('\n' :: rest) = [] :: splitNl rest := rfl

theorem splitNl_cons_ne (c : Char) (rest : Str) (hc : ¬ c = '\n') :
    splitNl (c :: rest) = (c :: (splitNl rest).headD []) :: (splitNl rest).tail := by
  rw [splitNl.eq_def]
  split <;> simp_all

theorem joinLines_splitNl (t : Str) : joinLines (splitNl t) = t := by
  induction t with
  | nil => rfl
  | cons c rest ih =>
    by_cases hc : c = '\n'
    · rw [hc, splitNl_cons_newline]
      obtain ⟨b, r, hbr⟩ := List.exists_cons_of_ne_nil (splitNl_ne_nil rest)
      rw [hbr] at ih ⊢
      show joinLines ([] :: b :: r) = '\n' :: rest
      rw [show joinLines ([] :: b :: r) = [] ++ '\n' :: joinLines (b :: r) from rfl]
      rw [ih]
      rfl
    · rw [splitNl_cons_ne c rest hc]
      obtain ⟨b, r, hbr⟩ := List.exists_cons_of_ne_nil (splitNl_ne_nil rest)
      rw [hbr] at ih ⊢
      cases r with
      | nil => show c :: b = c :: rest; rw [show joinLines [b] = b from rfl] at ih; rw [ih]
      | cons b2 r2 =>
        show (c :: b) ++ '\n' :: joinLines (b2 :: r2) = c :: rest
        rw [show joinLines (b :: b2 :: r2) = b ++ '\n' :: joinLines (b2 :: r2) from rfl] at ih
        rw [← ih]
        rfl

theorem foldl_min_le_init (l : List ℤ) (init : ℤ) : l.foldl min init ≤ init := by
  induction l generalizing init with
  | nil => exact le_refl _
  | cons a rest ih => exact le_trans (ih (min init a)) (min_le_left _ _)

theorem foldl_min_le_mem (l : List ℤ) (init a : ℤ) (ha : a ∈ l) :
    l.foldl min init ≤ a := by
  induction l generalizing init with
  | nil => cases ha
  | cons b rest ih =>
    rcases List.mem_cons.mp ha with h | h
    · exact le_trans (foldl_min_le_init rest (min init b)) (h ▸ min_le_right _ _)
    · exact ih (min init b) h

theorem le_foldl_min (l : List ℤ) (init m : ℤ) (hall : ∀ a ∈ l, m ≤ a)
    (hinit : m ≤ init) : m ≤ l.foldl min init := by
  induction l generalizing init with
  | nil => exact hinit
  | cons a rest ih =>
    exact ih (min init a) (fun b hb => hall b (List.mem_cons_of_mem _ hb))
      (le_min hinit (hall a (List.mem_cons_self _ _)))

theorem foldl_min_eq (l : List ℤ) (init m : ℤ) (hall : ∀ a ∈ l, m ≤ a)
    (hmem : m ∈ l) (hinit : m ≤ init) : l.foldl min init = m :=
  le_antisymm (foldl_min_le_mem l init m hmem) (le_foldl_min l init m hall hinit)

theorem init_le_foldl_max (l : List ℤ) (init : ℤ) : init ≤ l.foldl max init := by
  induction l generalizing init with
  | nil => exact le_refl _
  | cons a rest ih => exact le_trans (le_max_left _ _) (ih (max init a))

theorem mem_le_foldl_max (l : List ℤ) (init a : ℤ) (ha : a ∈ l) :
    a ≤ l.foldl max init := by
  induction l generalizing init with
  | nil => cases ha
  | cons b rest ih =>
    rcases List.mem_cons.mp ha with h | h
    · exact le_trans (h ▸ le_max_right init b) (init_le_foldl_max rest (max init b))
    · exact ih (max init b) h

theorem foldl_max_le (l : List ℤ) (init m : ℤ) (hall : ∀ a ∈ l, a ≤ m)
    (hinit : init ≤ m) : l.foldl max init ≤ m := by
  induction l generalizing init with
  | nil => exact hinit
  | cons a rest ih =>
    exact ih (max init a) (fun b hb => hall b (List.mem_cons_of_mem _ hb))
      (max_le hinit (hall a (List.mem_cons_self _ _)))

theorem foldl_max_eq (l : List ℤ) (init m : ℤ) (hall : ∀ a ∈ l, a ≤ m)
    (hmem : m ∈ l) (hinit : init ≤ m) : l.foldl max init = m :=
  le_antisymm (foldl_max_le l init m hall hinit) (mem_le_foldl_max l init m hmem)

theorem foldl_vecmin_x (l : List Vector) (init : Vector) :
    (l.foldl (fun (s : Vector) (p : Vector) =>
        Vector.mk (min s.x p.x) (min s.y p.y)) init).x
      = (l.map (fun p => p.x)).foldl min init.x := by
  induction l generalizing init with
  | nil => rfl
  | cons a rest ih => exact ih ⟨min init.x a.x, min init.y a.y⟩

theorem foldl_vecmin_y (l : List Vector) (init : Vector) :
    (l.foldl (fun (s : Vector) (p : Vector) =>
        Vector.mk (min s.x p.x) (min s.y p.y)) init).y
      = (l.map (fun p => p.y)).foldl min init.y := by
  induction l generalizing init with
  | nil => rfl
  | cons a rest ih => exact ih ⟨min init.x a.x, min init.y a.y⟩

theorem foldl_vecmax_x (l : List Vector) (init : Vector) :
    (l.foldl (fun (e : Vector) (p : Vector) =>
        Vector.mk (max e.x p.x) (max e.y p.y)) init).x
      = (l.map (fun p => p.x)).foldl max init.x := by
  induction l generalizing init with
  | nil => rfl
  | cons a rest ih => exact ih ⟨max init.x a.x, max init.y a.y⟩

theorem foldl_vecmax_y (l : List Vector) (init : Vector) :
    (l.foldl (fun (e : Vector) (p : Vector) =>
        Vector.mk (max e.x p.x) (max e.y p.y)) init).y
      = (l.map (fun p => p.y)).foldl max init.y := by
  induction l generalizing init with
  | nil => rfl
  | cons a rest ih => exact ih ⟨max init.x a.x, max init.y a.y⟩

theorem foldl_append_singletons {α : Type} (xs : List α) (f : α → Char) (acc : Str) :
    (xs.map (fun a => [f a])).foldl (fun acc cur => acc ++ cur) acc
      = acc ++ xs.map f := by
  induction xs generalizing acc with
  | nil => simp
  | cons a rest ih =>
    simp only [List.map_cons, List.foldl_cons]
    rw [ih]
    simp

theorem range_map_getD {α : Type} (l : List α) (d : α) :
    (List.range l.length).map (fun i => l.getD i d) = l := by
  induction l with
  | nil => rfl
  | cons a rest ih =>
    rw [show (a :: rest).length = rest.length + 1 from rfl, List.range_succ_eq_map]
    simp only [List.map_cons, List.map_map]
    rw [show ((a :: rest).getD 0 d) = a from rfl]
    have hcomp : ((fun i => (a :: rest).getD i d) ∘ Nat.succ)
        = fun i => rest.getD i d := by
      funext i
      rfl
    rw [hcomp, ih]

/-- Lookup after folding one line of `textToLayer` (zero offset): positions
on row `j` inside the enumerated range read the kept character, all other
positions are untouched. -/
theorem textToLayer_inner_get (line : Str) (j : ℕ) (s : ℕ) (acc : Layer) (x y : ℤ) :
    ((line.enumFrom s).foldl
        (fun l ichar => if keepChar ichar.2
          then l.set ⟨(ichar.1 : ℤ), (j : ℤ)⟩ [ichar.2] else l)
        acc).get ⟨x, y⟩
      = if y = (j : ℤ) ∧ (s : ℤ) ≤ x ∧ x < (s : ℤ) + line.length ∧
            keepChar (line.getD (x - (s : ℤ)).toNat ' ')
        then some [line.getD (x - (s : ℤ)).toNat ' ']
        else acc.get ⟨x, y⟩ := by
  induction line generalizing s acc with
  | nil =>
    rw [if_neg]
    · rfl
    · rintro ⟨_, h1, h2, _⟩
      simp only [List.length_nil, Nat.cast_zero, add_zero] at h2
      omega
  | cons c rest ih =>
    rw [show (c :: rest).enumFrom s = (s, c) :: rest.enumFrom (s + 1) from rfl,
      List.foldl_cons]
    rw [ih (s + 1) _]
    have hcast : ((s + 1 : ℕ) : ℤ) = (s : ℤ) + 1 := by push_cast; ring
    simp only [hcast, List.length_cons, Nat.cast_add, Nat.cast_one]
    by_cases hA : y = (j : ℤ) ∧ (s : ℤ) + 1 ≤ x ∧ x < (s : ℤ) + 1 + rest.length ∧
        keepChar (rest.getD (x - ((s : ℤ) + 1)).toNat ' ')
    · rw [if_pos hA]
      have hidx : (x - (s : ℤ)).toNat = (x - ((s : ℤ) + 1)).toNat + 1 := by omega
      have hchar : (c :: rest).getD (x - (s : ℤ)).toNat ' '
          = rest.getD (x - ((s : ℤ) + 1)).toNat ' ' := by
        rw [hidx]
        rfl
      rw [if_pos ⟨hA.1, by omega, by omega, hchar ▸ hA.2.2.2⟩, hchar]
    · rw [if_neg hA]
      by_cases hxy : x = (s : ℤ) ∧ y = (j : ℤ)
      · have hchar : (c :: rest).getD (x - (s : ℤ)).toNat ' ' = c := by
          rw [show (x - (s : ℤ)).toNat = 0 by omega]
          rfl
        by_cases hk : keepChar c
        · rw [if_pos hk, Layer.get_set,
            if_pos (by rw [Vector.mk.injEq]; exact hxy)]
          rw [if_pos ⟨hxy.2, by omega, by omega, by rw [hchar]; exact hk⟩, hchar]
        · rw [if_neg hk, if_neg]
          rintro ⟨-, -, -, hkeep⟩
          rw [hchar] at hkeep
          exact hk hkeep
      · have hne : ¬ (Vector.mk x y = Vector.mk (s : ℤ) (j : ℤ)) := by
          rw [Vector.mk.injEq]
          exact hxy
        have hrhs : ¬ (y = (j : ℤ) ∧ (s : ℤ) ≤ x ∧
            x < (s : ℤ) + ((rest.length : ℤ) + 1) ∧
            keepChar ((c :: rest).getD (x - (s : ℤ)).toNat ' ')) := by
          rintro ⟨hy, hx1, hx2, hkeep⟩
          have hx : ¬ x = (s : ℤ) := fun hh => hxy ⟨hh, hy⟩
          have hidx : (x - (s : ℤ)).toNat = (x - ((s : ℤ) + 1)).toNat + 1 := by omega
          have hchar : (c :: rest).getD (x - (s : ℤ)).toNat ' '
              = rest.getD (x - ((s : ℤ) + 1)).toNat ' ' := by
            rw [hidx]
            rfl
          exact hA ⟨hy, by omega, by omega, hchar ▸ hkeep⟩
        rw [if_neg hrhs]
        by_cases hk : keepChar c
        · rw [if_pos hk, Layer.get_set, if_neg hne]
        · rw [if_neg hk]

/-- Lookup after folding the lines of `textToLayer` (zero offset): the
stored character at `(x, y)` is the kept character of line `y` at column
`x`, when in range; all other positions are untouched. -/
theorem textToLayer_outer_get (lines : List Str) (t : ℕ) (acc : Layer) (x y : ℤ) :
    ((lines.enumFrom t).foldl
        (fun l jline => (jline.2.enum.foldl
          (fun l2 ichar => if keepChar ichar.2
            then l2.set ⟨(ichar.1 : ℤ), (jline.1 : ℤ)⟩ [ichar.2] else l2) l)) acc).get ⟨x, y⟩
      = if (t : ℤ) ≤ y ∧ y < (t : ℤ) + lines.length ∧ 0 ≤ x ∧
            x < ((lines.getD (y - (t : ℤ)).toNat []).length : ℤ) ∧
            keepChar ((lines.getD (y - (t : ℤ)).toNat []).getD x.toNat ' ')
        then some [(lines.getD (y - (t : ℤ)).toNat []).getD x.toNat ' ']
        else acc.get ⟨x, y⟩ := by
  induction lines generalizing t acc with
  | nil =>
    rw [if_neg]
    · rfl
    · rintro ⟨h1, h2, -⟩
      simp only [List.length_nil, Nat.cast_zero, add_zero] at h2
      omega
  | cons line rest ih =>
    have hstep :
        (((line :: rest).enumFrom t).foldl
            (fun l jline => (jline.2.enum.foldl
              (fun l2 ichar => if keepChar ichar.2
                then l2.set ⟨(ichar.1 : ℤ), (jline.1 : ℤ)⟩ [ichar.2] else l2) l)) acc)
          = ((rest.enumFrom (t + 1)).foldl
            (fun l jline => (jline.2.enum.foldl
              (fun l2 ichar => if keepChar ichar.2
                then l2.set ⟨(ichar.1 : ℤ), (jline.1 : ℤ)⟩ [ichar.2] else l2) l))
            ((line.enumFrom 0).foldl
              (fun l2 ichar => if keepChar ichar.2
                then l2.set ⟨(ichar.1 : ℤ), (t : ℤ)⟩ [ichar.2] else l2) acc)) := rfl
    rw [hstep, ih (t + 1) _, textToLayer_inner_get line t 0 acc x y]
    have hcast : ((t + 1 : ℕ) : ℤ) = (t : ℤ) + 1 := by push_cast; ring
    simp only [hcast, List.length_cons, Nat.cast_add, Nat.cast_one, Nat.cast_zero,
      zero_add, sub_zero]
    by_cases hA : (t : ℤ) + 1 ≤ y ∧ y < (t : ℤ) + 1 + rest.length ∧ 0 ≤ x ∧
        x < ((rest.getD (y - ((t : ℤ) + 1)).toNat []).length : ℤ) ∧
        keepChar ((rest.getD (y - ((t : ℤ) + 1)).toNat []).getD x.toNat ' ')
    · rw [if_pos hA]
      have hidx : (y - (t : ℤ)).toNat = (y - ((t : ℤ) + 1)).toNat + 1 := by omega
      have hrow : (line :: rest).getD (y - (t : ℤ)).toNat []
          = rest.getD (y - ((t : ℤ) + 1)).toNat [] := by
        rw [hidx]
        rfl
      rw [if_pos ⟨by omega, by omega, hA.2.2.1,
        by rw [hrow]; exact hA.2.2.2.1, by rw [hrow]; exact hA.2.2.2.2⟩, hrow]
    · rw [if_neg hA]
      by_cases hy : y = (t : ℤ)
      · have hrow : (line :: rest).getD (y - (t : ℤ)).toNat [] = line := by
          rw [show (y - (t : ℤ)).toNat = 0 by omega]
          rfl
        by_cases hx : 0 ≤ x ∧ x < (line.length : ℤ) ∧ keepChar (line.getD x.toNat ' ')
        · rw [if_pos ⟨hy, hx.1, hx.2.1, hx.2.2⟩,
            if_pos ⟨by omega, by omega, hx.1, by rw [hrow]; exact hx.2.1,
              by rw [hrow]; exact hx.2.2⟩, hrow]
        · have hcneg1 : ¬ (y = (t : ℤ) ∧ 0 ≤ x ∧ x < (line.length : ℤ) ∧
              keepChar (line.getD x.toNat ' ')) := by
            rintro ⟨h1, h2, h3, h4⟩
            exact hx ⟨h2, h3, h4⟩
          have hcneg2 : ¬ ((t : ℤ) ≤ y ∧ y < (t : ℤ) + ((rest.length : ℤ) + 1) ∧ 0 ≤ x ∧
              x < (((line :: rest).getD (y - (t : ℤ)).toNat []).length : ℤ) ∧
              keepChar (((line :: rest).getD (y - (t : ℤ)).toNat []).getD x.toNat ' ')) := by
            rintro ⟨h1, h2, h3, h4, h5⟩
            rw [hrow] at h4 h5
            exact hx ⟨h3, h4, h5⟩
          rw [if_neg hcneg1, if_neg hcneg2]
      · rw [if_neg (by rintro ⟨h1, -⟩; exact hy h1),
          if_neg ?_]
        rintro ⟨h1, h2, h3, h4, h5⟩
        have hy1 : (t : ℤ) + 1 ≤ y := by omega
        have hidx : (y - (t : ℤ)).toNat = (y - ((t : ℤ) + 1)).toNat + 1 := by omega
        have hrow : (line :: rest).getD (y - (t : ℤ)).toNat []
            = rest.getD (y - ((t : ℤ) + 1)).toNat [] := by
          rw [hidx]
          rfl
        exact hA ⟨hy1, by omega, h3, by rw [hrow] at h4; exact h4,
          by rw [hrow] at h5; exact h5⟩

/-- Lookup into `textToLayer` at offset `(0,0)`, phrased over the
normalized, split lines of the input. -/
theorem textToLayer_get_zero (T : Str) (x y : ℤ) :
    (textToLayer T ⟨0, 0⟩).get ⟨x, y⟩
      = if 0 ≤ y ∧ y < ((splitNl (normalizeNewlines T)).length : ℤ) ∧ 0 ≤ x ∧
            x < (((splitNl (normalizeNewlines T)).getD y.toNat []).length : ℤ) ∧
            keepChar
              (((splitNl (normalizeNewlines T)).getD y.toNat []).getD x.toNat ' ')
        then some [((splitNl (normalizeNewlines T)).getD y.toNat []).getD x.toNat ' ']
        else none := by
  have hfun : (fun (l : Layer) (jline : ℕ × Str) => jline.2.enum.foldl
        (fun l2 ichar => if keepChar ichar.2
          then l2.set ((Vector.mk (ichar.1 : ℤ) (jline.1 : ℤ)).add ⟨0, 0⟩) [ichar.2]
          else l2) l)
      = (fun (l : Layer) (jline : ℕ × Str) => jline.2.enum.foldl
        (fun l2 ichar => if keepChar ichar.2
          then l2.set ⟨(ichar.1 : ℤ), (jline.1 : ℤ)⟩ [ichar.2] else l2) l) := by
    funext l jline
    have hstep : (fun (l2 : Layer) (ichar : ℕ × Char) => if keepChar ichar.2
          then l2.set ((Vector.mk (ichar.1 : ℤ) (jline.1 : ℤ)).add ⟨0, 0⟩) [ichar.2]
          else l2)
        = (fun (l2 : Layer) (ichar : ℕ × Char) => if keepChar ichar.2
          then l2.set ⟨(ichar.1 : ℤ), (jline.1 : ℤ)⟩ [ichar.2] else l2) := by
      funext l2 ichar
      have hv : (Vector.mk (ichar.1 : ℤ) (jline.1 : ℤ)).add ⟨0, 0⟩
          = Vector.mk (ichar.1 : ℤ) (jline.1 : ℤ) := by
        simp [Vector.add]
      rw [hv]
    rw [hstep]
  rw [show textToLayer T ⟨0, 0⟩
      = ((splitNl (normalizeNewlines T)).enumFrom 0).foldl
          (fun (l : Layer) (jline : ℕ × Str) => jline.2.enum.foldl
            (fun l2 ichar => if keepChar ichar.2
              then l2.set ((Vector.mk (ichar.1 : ℤ) (jline.1 : ℤ)).add ⟨0, 0⟩)
                [ichar.2]
              else l2) l)
          Layer.empty
      from rfl]
  rw [hfun, textToLayer_outer_get]
  simp only [Nat.cast_zero, zero_add, sub_zero]
  by_cases h : 0 ≤ y ∧ y < ((splitNl (normalizeNewlines T)).length : ℤ) ∧ 0 ≤ x ∧
      x < (((splitNl (normalizeNewlines T)).getD y.toNat []).length : ℤ) ∧
      keepChar (((splitNl (normalizeNewlines T)).getD y.toNat []).getD x.toNat ' ')
  · rw [if_pos h, if_pos h]
  · rw [if_neg h, if_neg h]
    rfl

@[simp] theorem Vector.x_mk (a b : ℤ) : (Vector.mk a b).x = a := rfl

@[simp] theorem Vector.y_mk (a b : ℤ) : (Vector.mk a b).y = b := rfl

theorem Vector.ext' (v w : Vector) (hx : v.x = w.x) (hy : v.y = w.y) : v = w := by
  cases v
  cases w
  cases hx
  cases hy
  rfl

theorem getD_mem {α : Type} (l : List α) (d : α) (j : ℕ) (h : j < l.length) :
    l.getD j d ∈ l := by
  induction l generalizing j with
  | nil => simp at h
  | cons a rest ih =>
    cases j with
    | zero => exact List.mem_cons_self _ _
    | succ n => exact List.mem_cons_of_mem _ (ih n (by simpa using h))

theorem getD_eq_getElem {α : Type} (l : List α) (d : α) (j : ℕ) (h : j < l.length) :
    l.getD j d = l[j] := by
  induction l generalizing j with
  | nil => simp at h
  | cons a rest ih =>
    cases j with
    | zero => rfl
    | succ n => exact ih n (by simpa using h)

/-- Unfolding of `layerToText` without a supplied box, once the bounding
fold results are known. -/
theorem layerToText_none_eq (layer : Layer) (hne : ¬ layer.keys.length = 0)
    (tlx tly brx bry : ℤ)
    (hstart : layer.keys.foldl
        (fun (s : Vector) (p : Vector) => Vector.mk (min s.x p.x) (min s.y p.y))
        ⟨maxSafeInteger, maxSafeInteger⟩ = ⟨tlx, tly⟩)
    (hstop : layer.keys.foldl
        (fun (e : Vector) (p : Vector) => Vector.mk (max e.x p.x) (max e.y p.y))
        ⟨-maxSafeInteger, -maxSafeInteger⟩ = ⟨brx, bry⟩)
    (hbox : Box.make ⟨tlx, tly⟩ ⟨brx, bry⟩ = ⟨⟨tlx, tly⟩, ⟨brx, bry⟩⟩) :
    layerToText layer none =
      joinLines ((List.range (bry - tly + 1).toNat).map
        (fun (r : ℕ) => ((List.range (brx - tlx + 1).toNat).map
          (fun (c : ℕ) => cellText layer ⟨tlx + (c : ℤ), tly + (r : ℤ)⟩)).foldl
          (fun acc cur => acc ++ cur) [])) := by
  unfold layerToText
  rw [if_neg hne]
  simp only []
  rw [hstart, hstop, hbox]

/-- Core of the amended C4: for a text in normalized form whose lines are a
space-padded rectangle of width `w` with non-space content touching the
first row, last row, first column and last column, the round trip through
`textToLayer` and `layerToText` is exact. -/
theorem layerToText_textToLayer_rect (T : Str) (w : ℕ)
    (hnorm : normalizeNewlines T = T)
    (hlen : ∀ line ∈ splitNl T, line.length = w)
    (hctrl : ∀ line ∈ splitNl T, ∀ c ∈ line, 32 ≤ c.toNat ∧ c.toNat ≠ 127)
    (hfirstrow : ∃ c ∈ (splitNl T).getD 0 [], c ≠ ' ')
    (hlastrow : ∃ c ∈ (splitNl T).getD ((splitNl T).length - 1) [], c ≠ ' ')
    (hfirstcol : ∃ line ∈ splitNl T, line.getD 0 ' ' ≠ ' ')
    (hlastcol : ∃ line ∈ splitNl T, line.getD (w - 1) ' ' ≠ ' ') :
    layerToText (textToLayer T ⟨0, 0⟩) none = T := by
  have hLne : splitNl T ≠ [] := splitNl_ne_nil T
  have hL1 : 0 < (splitNl T).length := List.length_pos.mpr hLne
  have hget : ∀ x y : ℤ, (textToLayer T ⟨0, 0⟩).get ⟨x, y⟩
      = if 0 ≤ y ∧ y < ((splitNl T).length : ℤ) ∧ 0 ≤ x ∧
            x < (((splitNl T).getD y.toNat []).length : ℤ) ∧
            keepChar (((splitNl T).getD y.toNat []).getD x.toNat ' ')
        then some [((splitNl T).getD y.toNat []).getD x.toNat ' ']
        else none := by
    intro x y
    rw [textToLayer_get_zero, hnorm]
  have hrowlen : ∀ j : ℕ, j < (splitNl T).length →
      ((splitNl T).getD j []).length = w :=
    fun j hj => hlen _ (getD_mem _ [] j hj)
  have hkeepiff : ∀ j i : ℕ, j < (splitNl T).length →
      i < ((splitNl T).getD j []).length →
      (keepChar (((splitNl T).getD j []).getD i ' ') ↔
        ((splitNl T).getD j []).getD i ' ' ≠ ' ') := by
    intro j i hj hi
    have hc := hctrl _ (getD_mem _ [] j hj) _ (getD_mem _ ' ' i hi)
    unfold keepChar
    exact ⟨fun h => h.1, fun h => ⟨h, hc.1, hc.2⟩⟩
  have hkeys : ∀ p : Vector, p ∈ (textToLayer T ⟨0, 0⟩).keys ↔
      (0 ≤ p.x ∧ 0 ≤ p.y ∧ p.y < ((splitNl T).length : ℤ) ∧
        p.x < (((splitNl T).getD p.y.toNat []).length : ℤ) ∧
        ((splitNl T).getD p.y.toNat []).getD p.x.toNat ' ' ≠ ' ') := by
    intro p
    rw [Layer.mem_keys_iff_get]
    constructor
    · rintro ⟨s, hs⟩
      have hs2 : (textToLayer T ⟨0, 0⟩).get ⟨p.x, p.y⟩ = some s := hs
      rw [hget p.x p.y] at hs2
      by_cases hcond : 0 ≤ p.y ∧ p.y < ((splitNl T).length : ℤ) ∧ 0 ≤ p.x ∧
          p.x < (((splitNl T).getD p.y.toNat []).length : ℤ) ∧
          keepChar (((splitNl T).getD p.y.toNat []).getD p.x.toNat ' ')
      · obtain ⟨h1, h2, h3, h4, h5⟩ := hcond
        have hjn : p.y.toNat < (splitNl T).length := by omega
        have hin : p.x.toNat < ((splitNl T).getD p.y.toNat []).length := by omega
        exact ⟨h3, h1, h2, h4, (hkeepiff _ _ hjn hin).mp h5⟩
      · rw [if_neg hcond] at hs2
        exact absurd hs2 (by simp)
    · rintro ⟨h1, h2, h3, h4, h5⟩
      have hjn : p.y.toNat < (splitNl T).length := by omega
      have hin : p.x.toNat < ((splitNl T).getD p.y.toNat []).length := by omega
      refine ⟨[((splitNl T).getD p.y.toNat []).getD p.x.toNat ' '], ?_⟩
      show (textToLayer T ⟨0, 0⟩).get ⟨p.x, p.y⟩ = _
      rw [hget p.x p.y,
        if_pos ⟨h2, h3, h1, h4, (hkeepiff _ _ hjn hin).mpr h5⟩]
  have hbound : ∀ p ∈ (textToLayer T ⟨0, 0⟩).keys,
      0 ≤ p.x ∧ p.x ≤ (w : ℤ) - 1 ∧ 0 ≤ p.y ∧ p.y ≤ ((splitNl T).length : ℤ) - 1 := by
    intro p hp
    obtain ⟨h1, h2, h3, h4, h5⟩ := (hkeys p).mp hp
    have hjn : p.y.toNat < (splitNl T).length := by omega
    have hrl := hrowlen _ hjn
    rw [hrl] at h4
    exact ⟨h1, by omega, h2, by omega⟩
  -- width is at least 1, via the first-column witness
  obtain ⟨lineFC, hlineFC, hcolFC⟩ := hfirstcol
  have hlineFCne : lineFC ≠ [] := by
    intro h0
    rw [h0] at hcolFC
    exact hcolFC rfl
  have hw1 : 1 ≤ w := by
    have := hlen _ hlineFC
    cases hl : lineFC with
    | nil => exact absurd hl hlineFCne
    | cons a r =>
      rw [hl] at this
      simp only [List.length_cons] at this
      omega
  -- witness keys on the four extreme sides
  obtain ⟨cFR, hcFRmem, hcFRne⟩ := hfirstrow
  obtain ⟨iFR, hiFR, hiFReq⟩ := List.mem_iff_getElem.mp hcFRmem
  have wit_row0 : (Vector.mk (iFR : ℤ) 0) ∈ (textToLayer T ⟨0, 0⟩).keys := by
    rw [hkeys]
    simp only [Vector.x_mk, Vector.y_mk]
    refine ⟨Int.natCast_nonneg _, le_refl _, by exact_mod_cast hL1, ?_, ?_⟩
    · simp only [Int.toNat_natCast, Int.toNat_zero]
      exact_mod_cast hiFR
    · simp only [Int.toNat_natCast, Int.toNat_zero]
      rw [getD_eq_getElem _ ' ' iFR hiFR, hiFReq]
      exact hcFRne
  obtain ⟨cLR, hcLRmem, hcLRne⟩ := hlastrow
  obtain ⟨iLR, hiLR, hiLReq⟩ := List.mem_iff_getElem.mp hcLRmem
  have wit_rowlast : (Vector.mk (iLR : ℤ) (((splitNl T).length : ℤ) - 1))
      ∈ (textToLayer T ⟨0, 0⟩).keys := by
    rw [hkeys]
    simp only [Vector.x_mk, Vector.y_mk]
    have hyn : ((((splitNl T).length : ℤ) - 1)).toNat = (splitNl T).length - 1 := by
      omega
    refine ⟨Int.natCast_nonneg _, by omega, by omega, ?_, ?_⟩
    · simp only [hyn, Int.toNat_natCast]
      exact_mod_cast hiLR
    · simp only [hyn, Int.toNat_natCast]
      rw [getD_eq_getElem _ ' ' iLR hiLR, hiLReq]
      exact hcLRne
  obtain ⟨jFC, hjFC, hjFCeq⟩ := List.mem_iff_getElem.mp hlineFC
  have hrowFC : (splitNl T).getD jFC [] = lineFC := by
    rw [getD_eq_getElem _ [] jFC hjFC, hjFCeq]
  have wit_col0 : (Vector.mk 0 (jFC : ℤ)) ∈ (textToLayer T ⟨0, 0⟩).keys := by
    rw [hkeys]
    simp only [Vector.x_mk, Vector.y_mk]
    refine ⟨le_refl _, Int.natCast_nonneg _, by exact_mod_cast hjFC, ?_, ?_⟩
    · simp only [Int.toNat_natCast, Int.toNat_zero, hrowFC]
      have : 0 < lineFC.length := List.length_pos.mpr hlineFCne
      exact_mod_cast this
    · simp only [Int.toNat_natCast, Int.toNat_zero, hrowFC]
      exact hcolFC
  obtain ⟨lineLC, hlineLC, hcolLC⟩ := hlastcol
  obtain ⟨jLC, hjLC, hjLCeq⟩ := List.mem_iff_getElem.mp hlineLC
  have hrowLC : (splitNl T).getD jLC [] = lineLC := by
    rw [getD_eq_getElem _ [] jLC hjLC, hjLCeq]
  have wit_collast : (Vector.mk ((w : ℤ) - 1) (jLC : ℤ))
      ∈ (textToLayer T ⟨0, 0⟩).keys := by
    rw [hkeys]
    simp only [Vector.x_mk, Vector.y_mk]
    have hxn : ((w : ℤ) - 1).toNat = w - 1 := by omega
    refine ⟨by omega, Int.natCast_nonneg _, by exact_mod_cast hjLC, ?_, ?_⟩
    · simp only [hxn, Int.toNat_natCast, hrowLC]
      have := hlen _ hlineLC
      omega
    · simp only [hxn, Int.toNat_natCast, hrowLC]
      exact hcolLC
  -- bounding box folds
  have hmaxsafe0 : (0 : ℤ) ≤ maxSafeInteger := by
    simp only [maxSafeInteger]
    omega
  have hstart : (textToLayer T ⟨0, 0⟩).keys.foldl
      (fun (s : Vector) (p : Vector) => Vector.mk (min s.x p.x) (min s.y p.y))
      ⟨maxSafeInteger, maxSafeInteger⟩ = ⟨0, 0⟩ := by
    refine Vector.ext' _ _ ?_ ?_
    · rw [foldl_vecmin_x]
      refine foldl_min_eq _ _ 0 ?_ ?_ hmaxsafe0
      · intro a ha
        obtain ⟨p, hp, hpa⟩ := List.mem_map.mp ha
        exact hpa ▸ (hbound p hp).1
      · exact List.mem_map.mpr ⟨_, wit_col0, rfl⟩
    · rw [foldl_vecmin_y]
      refine foldl_min_eq _ _ 0 ?_ ?_ hmaxsafe0
      · intro a ha
        obtain ⟨p, hp, hpa⟩ := List.mem_map.mp ha
        exact hpa ▸ (hbound p hp).2.2.1
      · exact List.mem_map.mpr ⟨_, wit_row0, rfl⟩
  have hstop : (textToLayer T ⟨0, 0⟩).keys.foldl
      (fun (e : Vector) (p : Vector) => Vector.mk (max e.x p.x) (max e.y p.y))
      ⟨-maxSafeInteger, -maxSafeInteger⟩ = ⟨(w : ℤ) - 1, ((splitNl T).length : ℤ) - 1⟩ := by
    refine Vector.ext' _ _ ?_ ?_
    · rw [foldl_vecmax_x]
      refine foldl_max_eq _ _ ((w : ℤ) - 1) ?_ ?_
        (by simp only [Vector.x_mk, maxSafeInteger]; omega)
      · intro a ha
        obtain ⟨p, hp, hpa⟩ := List.mem_map.mp ha
        exact hpa ▸ (hbound p hp).2.1
      · exact List.mem_map.mpr ⟨_, wit_collast, rfl⟩
    · rw [foldl_vecmax_y]
      refine foldl_max_eq _ _ (((splitNl T).length : ℤ) - 1) ?_ ?_
        (by simp only [Vector.y_mk, maxSafeInteger]; omega)
      · intro a ha
        obtain ⟨p, hp, hpa⟩ := List.mem_map.mp ha
        exact hpa ▸ (hbound p hp).2.2.2
      · exact List.mem_map.mpr ⟨_, wit_rowlast, rfl⟩
  have hboxmk : Box.make ⟨0, 0⟩ ⟨(w : ℤ) - 1, ((splitNl T).length : ℤ) - 1⟩
      = ⟨⟨0, 0⟩, ⟨(w : ℤ) - 1, ((splitNl T).length : ℤ) - 1⟩⟩ := by
    unfold Box.make
    rw [min_eq_left (by omega : (0 : ℤ) ≤ (w : ℤ) - 1),
      min_eq_left (by omega : (0 : ℤ) ≤ ((splitNl T).length : ℤ) - 1),
      max_eq_right (by omega : (0 : ℤ) ≤ (w : ℤ) - 1),
      max_eq_right (by omega : (0 : ℤ) ≤ ((splitNl T).length : ℤ) - 1)]
  have hkeysne : ¬ ((textToLayer T ⟨0, 0⟩).keys.length = 0) := by
    intro h0
    rw [List.length_eq_zero] at h0
    rw [h0] at wit_col0
    cases wit_col0
  rw [layerToText_none_eq _ hkeysne 0 0 ((w : ℤ) - 1) (((splitNl T).length : ℤ) - 1)
    hstart hstop hboxmk]
  have hh : (((splitNl T).length : ℤ) - 1 - 0 + 1).toNat = (splitNl T).length := by
    omega
  have hwn : ((w : ℤ) - 1 - 0 + 1).toNat = w := by omega
  rw [hh, hwn]
  have hcell : ∀ (r c : ℕ), r < (splitNl T).length → c < w →
      cellText (textToLayer T ⟨0, 0⟩) ⟨0 + (c : ℤ), 0 + (r : ℤ)⟩
        = [((splitNl T).getD r []).getD c ' '] := by
    intro r c hr hc
    have hz : (Vector.mk (0 + (c : ℤ)) (0 + (r : ℤ))) = ⟨(c : ℤ), (r : ℤ)⟩ :=
      Vector.ext' _ _ (zero_add _) (zero_add _)
    rw [hz]
    unfold cellText
    rw [hget (c : ℤ) (r : ℤ)]
    simp only [Int.toNat_natCast]
    by_cases hsp : ((splitNl T).getD r []).getD c ' ' = ' '
    · rw [if_neg]
      · rw [hsp]
      · rintro ⟨-, -, -, -, hkeep⟩
        exact hkeep.1 hsp
    · have hin : c < ((splitNl T).getD r []).length := by
        rw [hrowlen r hr]
        exact hc
      rw [if_pos ⟨Int.natCast_nonneg _, by exact_mod_cast hr, Int.natCast_nonneg _,
        by exact_mod_cast hin, (hkeepiff r c hr hin).mpr hsp⟩]
      show (if (((splitNl T).getD r []).getD c ' ').toNat < 32 ∨
            (((splitNl T).getD r []).getD c ' ').toNat = 127
          then [' '] else ((splitNl T).getD r []).getD c ' ' :: [])
        = [((splitNl T).getD r []).getD c ' ']
      have hc2 := hctrl _ (getD_mem _ [] r hr) _ (getD_mem _ ' ' c hin)
      rw [if_neg (by omega)]
  have hrows : (List.range (splitNl T).length).map
      (fun (r : ℕ) => ((List.range w).map
        (fun (c : ℕ) =>
          cellText (textToLayer T ⟨0, 0⟩) ⟨0 + (c : ℤ), 0 + (r : ℤ)⟩)).foldl
        (fun acc cur => acc ++ cur) [])
      = (List.range (splitNl T).length).map (fun r => (splitNl T).getD r []) := by
    refine List.map_congr_left ?_
    intro r hr
    have hrn : r < (splitNl T).length := List.mem_range.mp hr
    have hmapeq : (List.range w).map
        (fun (c : ℕ) => cellText (textToLayer T ⟨0, 0⟩) ⟨0 + (c : ℤ), 0 + (r : ℤ)⟩)
        = (List.range w).map (fun c => [((splitNl T).getD r []).getD c ' ']) := by
      refine List.map_congr_left ?_
      intro c hc
      exact hcell r c hrn (List.mem_range.mp hc)
    rw [hmapeq, foldl_append_singletons, List.nil_append]
    rw [show w = ((splitNl T).getD r []).length from (hrowlen r hrn).symm]
    exact range_map_getD _ ' '
  rw [hrows, range_map_getD _ ([] : Str), joinLines_splitNl]

/-- C4 (amended): the `textToLayer`/`layerToText` round trip is exact for
texts without control characters whose `\n`-normalized form is a
space-padded rectangle — all lines the same length `w`, with a non-space
character somewhere in the first row, the last row, the first column and
the last column — and this holds for all three line-ending variants
(`\n`, `\r\n`, `\r`), which normalize to the `\n` form.  (In general the
round trip crops to the bounding box of the non-space content and pads
every line to the box width, so texts outside this family are not
reproduced verbatim.) -/
theorem textToLayer_layerToText_roundtrip (T : Str) (w : ℕ)
    (hcr : '\r' ∉ T)
    (hlen : ∀ line ∈ splitNl T, line.length = w)
    (hctrl : ∀ line ∈ splitNl T, ∀ c ∈ line, 32 ≤ c.toNat ∧ c.toNat ≠ 127)
    (hfirstrow : ∃ c ∈ (splitNl T).getD 0 [], c ≠ ' ')
    (hlastrow : ∃ c ∈ (splitNl T).getD ((splitNl T).length - 1) [], c ≠ ' ')
    (hfirstcol : ∃ line ∈ splitNl T, line.getD 0 ' ' ≠ ' ')
    (hlastcol : ∃ line ∈ splitNl T, line.getD (w - 1) ' ' ≠ ' ') :
    layerToText (textToLayer T ⟨0, 0⟩) none = T ∧
    layerToText (textToLayer (toCRLF T) ⟨0, 0⟩) none = T ∧
    layerToText (textToLayer (toCR T) ⟨0, 0⟩) none = T := by
  have hnorm := normalizeNewlines_id T hcr
  have base := layerToText_textToLayer_rect T w hnorm hlen hctrl hfirstrow
    hlastrow hfirstcol hlastcol
  have hcong : ∀ T' : Str, normalizeNewlines T' = T →
      textToLayer T' ⟨0, 0⟩ = textToLayer T ⟨0, 0⟩ := by
    intro T' h
    unfold textToLayer
    rw [h, hnorm]
  refine ⟨base, ?_, ?_⟩
  · rw [hcong (toCRLF T) (normalizeNewlines_toCRLF T hcr)]
    exact base
  · rw [hcong (toCR T) (normalizeNewlines_toCR T hcr)]
    exact base

/-- Witness for the amended C4 on the 2×2 block `"AB\nCD"` and its CRLF and
CR variants. -/
theorem textToLayer_layerToText_roundtrip_witness :
    ('\r' ∉ str "AB\nCD") ∧
    layerToText (textToLayer (str "AB\nCD") ⟨0, 0⟩) none = str "AB\nCD" ∧
    layerToText (textToLayer (toCRLF (str "AB\nCD")) ⟨0, 0⟩) none = str "AB\nCD" ∧
    layerToText (textToLayer (toCR (str "AB\nCD")) ⟨0, 0⟩) none = str "AB\nCD" :=
  ⟨by decide,
    textToLayer_layerToText_roundtrip (str "AB\nCD") 2 (by decide) (by decide)
      (by decide) (by decide) (by decide) (by decide) (by decide)⟩

/-- Counterexample for C4 as stated: the text `"A "` contains no control
character at all, yet the round trip drops the trailing space: it returns
`"A"`, not `"A "` (layerToText crops to the bounding box of non-space
content). -/
theorem textToLayer_layerToText_counterexample :
    ¬ (layerToText (textToLayer (str "A ") ⟨0, 0⟩) none = str "A ") := by
  decide
